import Mathlib

/-!
Verification of the filename-transformation and collision-resolution logic of
`rename2date.py` (a tool that prefixes filenames with a timestamp derived from
each file's modification time).

The Python source is shallowly embedded:
  * POSIX path strings are Lean `String`s; `os.path.split`, `os.path.join`,
    `os.path.splitext`, `os.path.normpath` and `os.path.abspath` are translated
    from CPython's `posixpath` module, working on the underlying `List Char`.
  * `datetime` values are a record of calendar fields; `strftime` is translated
    for the directive set the tool documents (`%Y %m %d %H %M %S`, `%%`);
    other directives pass through unchanged, as glibc does.
  * The filesystem is an explicit value: a list of entries (path, regular-file
    flag, optional modification time, where `none` models an `OSError` from
    `os.path.getmtime`).  `os.path.exists` is membership among the entry paths,
    `os.path.isfile` membership with the flag set.  `os.rename` rewrites the
    entry's path; an oracle `renameErr` models OS-level rename failures
    (permission denied, target created concurrently), which in the source are
    caught per file by the `try/except` in `_on_rename`.
  * The unbounded `while True` probe loop of `ensure_unique_path` is embedded
    with explicit fuel `|fs| + 1`; the termination theorems show the fuel is
    never exhausted (the loop always reaches a free name within `|fs| + 1`
    probes), so the embedded function agrees with the source loop.
  * `_collect_targets` is modelled over the enumerated entries themselves
    (`iter_files` order is abstracted as the entry-list order; recursion into
    subdirectories does not affect any claim below).
-/

/-- Calendar fields of a `datetime.datetime` value (what `strftime` reads for
the directives the tool uses). -/
structure DT where
  year : Nat
  month : Nat
  day : Nat
  hour : Nat
  minute : Nat
  second : Nat
deriving DecidableEq

/-- Decimal digit character for `d < 10`. -/
def digitChar (d : Nat) : Char := Char.ofNat (48 + d)

/-- Decimal rendering of a natural number, most significant digit first,
with explicit fuel (structural recursion; fuel `n + 1` always suffices).
This is how CPython renders an `int` inside an f-string. -/
def decCharsAux (fuel : Nat) (n : Nat) : List Char :=
  match fuel with
  | 0 => []
  | fuel + 1 =>
      if n < 10 then [digitChar n]
      else decCharsAux fuel (n / 10) ++ [digitChar (n % 10)]

/-- Decimal rendering of a natural number as a list of characters. -/
def decChars (n : Nat) : List Char := decCharsAux (n + 1) n

/-- Decimal rendering of a natural number as a string (CPython `str(i)` /
f-string interpolation of an `int`). -/
def natToDec (n : Nat) : String := String.mk (decChars n)

/-- Inverse of the decimal rendering: fold the digit characters back. -/
def undigits (l : List Char) : Nat :=
  l.foldl (fun a c => a * 10 + (c.toNat - 48)) 0

/-- Left-pad a decimal rendering with zeros to width `w` (CPython's zero-padded
`strftime` fields). -/
def padZero (w : Nat) (n : Nat) : List Char :=
  List.replicate (w - (decChars n).length) '0' ++ decChars n

/-- `datetime.strftime`, translated for the directives the tool documents;
any other `%c` pair is emitted verbatim (glibc behaviour).  Works on the
pattern's character list. -/
def strftimeAux (dt : DT) : List Char → List Char
  | [] => []
  | '%' :: c :: rest =>
      (match c with
       | 'Y' => padZero 4 dt.year
       | 'm' => padZero 2 dt.month
       | 'd' => padZero 2 dt.day
       | 'H' => padZero 2 dt.hour
       | 'M' => padZero 2 dt.minute
       | 'S' => padZero 2 dt.second
       | '%' => ['%']
       | c => ['%', c]) ++ strftimeAux dt rest
  | c :: rest => c :: strftimeAux dt rest

/-- `dt.strftime(pattern)` on strings. -/
def strftime (pattern : String) (dt : DT) : String :=
  String.mk (strftimeAux dt pattern.data)

/-! ### POSIX path primitives (translated from CPython's `posixpath`) -/

/-- The part of a path after its last `'/'` (the whole list when there is no
`'/'`).  This is `os.path.split(p)[1]` at the character level. -/
def lastCompL (l : List Char) : List Char :=
  (l.reverse.takeWhile (fun c => c ≠ '/')).reverse

/-- Python `str.startswith` at the character-list level. -/
def startsWithL (l pre : List Char) : Bool :=
  pre.isPrefixOf l

/-- The head of `os.path.split`: everything before the final component,
with trailing slashes stripped unless the head is nothing but slashes. -/
def splitHeadL (l : List Char) : List Char :=
  let headPart := l.take (l.length - (lastCompL l).length)
  if headPart.all (fun c => c = '/') then headPart
  else (headPart.reverse.dropWhile (fun c => c = '/')).reverse

/-- `os.path.split`: split at the final slash; the head keeps only trailing
slashes when it consists of nothing else, otherwise they are stripped. -/
def splitPath (p : String) : String × String :=
  (String.mk (splitHeadL p.data), String.mk (lastCompL p.data))

/-- `os.path.join(a, b)` for the two-argument form the tool uses. -/
def joinPath (a b : String) : String :=
  if startsWithL b.data ['/'] then b
  else if a.data = [] || a.data.getLast? = some '/' then a ++ b
  else a ++ "/" ++ b

/-- `os.path.splitext` at the character level: the extension starts at the
final dot of the final path component, provided some non-dot character of
that component comes before it (so a leading-dot file such as `.bashrc`
has no extension). -/
def splitextL (l : List Char) : List Char × List Char :=
  let base := lastCompL l
  let pre := l.take (l.length - base.length)
  let extPart := (base.reverse.takeWhile (fun c => c ≠ '.')).reverse
  if extPart.length = base.length then (l, [])
  else
    let bstem := base.take (base.length - (extPart.length + 1))
    if bstem.any (fun c => c ≠ '.') then (pre ++ bstem, '.' :: extPart)
    else (l, [])

/-- `os.path.splitext` on strings. -/
def splitext (p : String) : String × String :=
  (String.mk (splitextL p.data).1, String.mk (splitextL p.data).2)

/-- Python `str.lower` (the tool only compares ASCII extensions). -/
def strLower (s : String) : String := String.mk (s.data.map Char.toLower)

/-- Python `str.strip` with no arguments: drop leading and trailing
whitespace. -/
def strip (s : String) : String :=
  String.mk (((s.data.dropWhile Char.isWhitespace).reverse.dropWhile
    Char.isWhitespace).reverse)

/-! ### The tool's pure helpers (from `rename2date.py`) -/

/-- `normalize_ext` (rename2date.py:13-19): strip, prepend a dot when
missing, lowercase; empty input normalises to the empty string. -/
def normalize_ext (ext : String) : String :=
  let e := strip ext
  if e = "" then ""
  else if ¬ startsWithL e.data ['.'] then strLower ("." ++ e)
  else strLower e

/-- `build_prefixed_name` (rename2date.py:34-37): put
`"<prefix>_<filename>"` back in the original directory. -/
def build_prefixed_name (path : String) (pfx : String) : String :=
  let dp := splitPath path
  joinPath dp.1 (pfx ++ "_" ++ dp.2)

/-- The `i`-th probed collision candidate of `ensure_unique_path`:
`os.path.join(directory, f"{stem}-{i}{ext}")`. -/
def mkCand (directory stem ext : String) (i : Nat) : String :=
  joinPath directory (stem ++ "-" ++ natToDec i ++ ext)

/-- The `while True` probe loop of `ensure_unique_path` (rename2date.py:45-50),
embedded with fuel.  `exist` is the list of paths that exist on the
filesystem; at fuel 0 the current candidate is returned unconditionally, and
the termination lemmas show fuel `|exist| + 1` never reaches that point. -/
def probeLoop (exist : List String) (directory stem ext : String) :
    Nat → Nat → String
  | i, 0 => mkCand directory stem ext i
  | i, fuel + 1 =>
      let c := mkCand directory stem ext i
      if exist.contains c then probeLoop exist directory stem ext (i + 1) fuel
      else c

/-- `ensure_unique_path` (rename2date.py:40-50): return the target unchanged
when nothing exists at it, otherwise probe `<stem>-1<ext>`, `<stem>-2<ext>`,
… in the target's directory until a free path is found. -/
def ensure_unique_path (exist : List String) (target_path : String) : String :=
  if ¬ exist.contains target_path then target_path
  else
    let dp := splitPath target_path
    let se := splitext dp.2
    probeLoop exist dp.1 se.1 se.2 1 (exist.length + 1)

/-- `should_skip_already_prefixed` (rename2date.py:63-64):
`filename.startswith(prefix + "_")`. -/
def should_skip_already_prefixed (filename : String) (pfx : String) : Bool :=
  startsWithL filename.data (pfx ++ "_").data

/-! ### `normpath` / `abspath` (for the no-op check in `_on_rename`) -/

/-- Python `str.split('/')`: split at every slash, keeping empty pieces. -/
def splitSlash : List Char → List (List Char)
  | [] => [[]]
  | c :: rest =>
      match splitSlash rest with
      | [] => [[]]
      | h :: t => if c = '/' then [] :: h :: t else (c :: h) :: t

/-- Python `'/'.join(comps)` at the character level. -/
def joinComps : List (List Char) → List Char
  | [] => []
  | [c] => c
  | c :: rest => c ++ '/' :: joinComps rest

/-- One step of `posixpath.normpath`'s component scan. -/
def normStep (initialSlashes : Nat) (acc : List (List Char))
    (comp : List Char) : List (List Char) :=
  if comp = [] || comp = ['.'] then acc
  else if comp ≠ ['.', '.'] || (initialSlashes = 0 && acc = []) ||
      (acc ≠ [] && acc.getLast? = some ['.', '.']) then acc ++ [comp]
  else if acc ≠ [] then acc.dropLast
  else acc

/-- `posixpath.normpath`: collapse `//`, `.` and resolvable `..` components,
preserving a double (but not triple) leading slash. -/
def normpath (p : String) : String :=
  if p = "" then "."
  else
    let l := p.data
    let initialSlashes : Nat :=
      if startsWithL l ['/'] then
        if startsWithL l ['/', '/'] && ¬ startsWithL l ['/', '/', '/'] then 2
        else 1
      else 0
    let comps := splitSlash l
    let newComps := comps.foldl (normStep initialSlashes) []
    let res := List.replicate initialSlashes '/' ++ joinComps newComps
    if res = [] then "." else String.mk res

/-- `posixpath.abspath` with an explicit current working directory:
join onto `cwd` (a relative path), or leave an absolute path alone, then
normalise. `joinPath` already returns `p` itself when `p` is absolute. -/
def abspath (cwd : String) (p : String) : String :=
  normpath (joinPath cwd p)

/-! ### The filesystem model and the execute / preview loops -/

/-- One filesystem entry: its path, whether it is a regular file, and its
modification time (`none` models `os.path.getmtime` raising `OSError`). -/
structure FSFile where
  path : String
  isFile : Bool
  mtime : Option DT
deriving DecidableEq

/-- The filesystem: the enumerated entries, in enumeration order. -/
abbrev FS : Type := List FSFile

/-- All existing paths (`os.path.exists` tests membership here). -/
def allPaths (fs : FS) : List String := fs.map (fun e => e.path)

/-- `os.path.isfile`. -/
def isfileB (fs : FS) (p : String) : Bool :=
  fs.any (fun e => e.path = p && e.isFile)

/-- The file paths `iter_files` yields (the enumeration stage). -/
def enumFiles (fs : FS) : List String :=
  (fs.filter (fun e => e.isFile)).map (fun e => e.path)

/-- `os.path.getmtime`: `none` when the path has no entry or the entry's
timestamp is unreadable. -/
def getMtime (fs : FS) (p : String) : Option DT :=
  match fs.find? (fun e => e.path = p) with
  | some e => e.mtime
  | none => none

/-- `get_modification_prefix` (rename2date.py:53-60): format the file's
mtime with the pattern; on a read failure fall back to the current
wall-clock time `now`. -/
def get_modification_prefix (fs : FS) (p : String) (pattern : String)
    (now : DT) : String :=
  match getMtime fs p with
  | some ts => strftime pattern ts
  | none => strftime pattern now

/-- `_collect_targets` (rename2date.py:155-160): enumerated paths that are
regular files whose extension, lowercased, equals the configured filter. -/
def collect_targets (fs : FS) (ext : String) : List String :=
  (enumFiles fs).filter
    (fun p => isfileB fs p && (strLower (splitext p).2 == ext))

/-- `os.rename(src, tgt)` on the model: the entry at `src` moves to `tgt`
(its file flag and mtime are untouched). -/
def applyRename (fs : FS) (src tgt : String) : FS :=
  fs.map (fun e => if e.path = src then { e with path := tgt } else e)

/-- The per-run tally `_on_rename` reports. -/
structure Summary where
  renamed : Nat
  skipped : Nat
  errors : Nat
deriving DecidableEq

/-- The body of `_on_rename`'s loop (rename2date.py:200-216) for one
candidate path, acting on (filesystem, tally, log lines).  `renameErr`
is the OS oracle: `some msg` means `os.rename` raises with that message
(caught by the `except` branch), `none` that it succeeds. -/
def renameStep (renameErr : String → String → Option String)
    (pattern : String) (skipFlag : Bool) (now : DT) (cwd : String)
    (st : FS × Summary × List String) (path : String) :
    FS × Summary × List String :=
  let fs := st.1
  let sm := st.2.1
  let log := st.2.2
  let filename := (splitPath path).2
  let pfx := get_modification_prefix fs path pattern now
  if skipFlag && should_skip_already_prefixed filename pfx then
    (fs, { sm with skipped := sm.skipped + 1 }, log)
  else
    let target := ensure_unique_path (allPaths fs) (build_prefixed_name path pfx)
    if abspath cwd path = abspath cwd target then
      (fs, { sm with skipped := sm.skipped + 1 }, log)
    else
      match renameErr path target with
      | some msg =>
          (fs, { sm with errors := sm.errors + 1 },
            log ++ ["ERROR: " ++ path ++ ": " ++ msg])
      | none =>
          (applyRename fs path target, { sm with renamed := sm.renamed + 1 },
            log ++ ["RENAMED: " ++ filename ++ " -> " ++ (splitPath target).2])

/-- The summary line `_on_rename` logs last (rename2date.py:217). -/
def summaryLine (sm : Summary) : String :=
  "Done. Renamed: " ++ natToDec sm.renamed ++ ", Skipped: " ++
    natToDec sm.skipped ++ ", Errors: " ++ natToDec sm.errors

/-- `_on_rename` (rename2date.py:189-217) after input validation: process
every collected candidate in order, then log the summary. -/
def on_rename (renameErr : String → String → Option String)
    (ext pattern : String) (skipFlag : Bool) (now : DT) (cwd : String)
    (fs : FS) : FS × Summary × List String :=
  let res := (collect_targets fs ext).foldl
    (renameStep renameErr pattern skipFlag now cwd) (fs, ⟨0, 0, 0⟩, [])
  (res.1, res.2.1, res.2.2 ++ [summaryLine res.2.1])

/-- The body of `_on_preview`'s loop (rename2date.py:171-185): walk the
candidates accumulating preview lines, stopping after the tenth entry.
Returns (entries shown, log lines). -/
def previewLoop (pattern : String) (skipFlag : Bool) (now : DT) (fs : FS) :
    List String → Nat → List String → Nat × List String
  | [], count, log => (count, log)
  | p :: rest, count, log =>
      let filename := (splitPath p).2
      let pfx := get_modification_prefix fs p pattern now
      if skipFlag && should_skip_already_prefixed filename pfx then
        previewLoop pattern skipFlag now fs rest count log
      else
        let newPath := build_prefixed_name p pfx
        let uniquePath := ensure_unique_path (allPaths fs) newPath
        let note :=
          if uniquePath ≠ newPath then " (collision -> will use unique name)"
          else ""
        let log' := log ++ [filename ++ " -> " ++ (splitPath uniquePath).2 ++ note]
        if count + 1 ≥ 10 then (count + 1, log')
        else previewLoop pattern skipFlag now fs rest (count + 1) log'

/-- `_on_preview` (rename2date.py:162-187) after input validation: the
filesystem is only read, never written, so it is returned unchanged; the
log gets at most ten `"old -> new"` lines, or the no-match message. -/
def on_preview (ext pattern : String) (skipFlag : Bool) (now : DT)
    (fs : FS) : FS × List String :=
  let r := previewLoop pattern skipFlag now fs (collect_targets fs ext) 0 []
  if r.1 = 0 then (fs, r.2 ++ ["No matching files found for preview."])
  else (fs, r.2)

/-! ### Decimal rendering: injectivity and character shape -/

theorem digitChar_toNat : ∀ d, d < 10 → (digitChar d).toNat = 48 + d := by
  decide

theorem undigits_append (l : List Char) (c : Char) :
    undigits (l ++ [c]) = (undigits l) * 10 + (c.toNat - 48) := by
  simp [undigits, List.foldl_append]

theorem undigits_decCharsAux :
    ∀ fuel n, n < fuel → undigits (decCharsAux fuel n) = n := by
  intro fuel
  induction fuel with
  | zero => intro n h; omega
  | succ fuel ih =>
      intro n h
      rw [decCharsAux]
      by_cases h10 : n < 10
      · simp [h10, undigits, digitChar_toNat n h10]
      · have hdiv : n / 10 < fuel := by
          have := Nat.div_lt_self (by omega : 0 < n) (by omega : 1 < 10)
          omega
        simp only [h10, if_false, undigits_append]
        rw [ih _ hdiv, digitChar_toNat _ (Nat.mod_lt n (by omega))]
        omega

theorem undigits_decChars (n : Nat) : undigits (decChars n) = n :=
  undigits_decCharsAux (n + 1) n (Nat.lt_succ_self n)

theorem decChars_inj {m n : Nat} (h : decChars m = decChars n) : m = n := by
  have := undigits_decChars m
  rw [h, undigits_decChars] at this
  omega

theorem natToDec_inj {m n : Nat} (h : natToDec m = natToDec n) : m = n :=
  decChars_inj (congrArg String.data h)

theorem decCharsAux_digits :
    ∀ fuel n c, c ∈ decCharsAux fuel n → ∃ d, d < 10 ∧ c = digitChar d := by
  intro fuel
  induction fuel with
  | zero => intro n c h; simp [decCharsAux] at h
  | succ fuel ih =>
      intro n c h
      rw [decCharsAux] at h
      by_cases h10 : n < 10
      · simp [h10] at h
        exact ⟨n, h10, h⟩
      · simp [h10] at h
        rcases h with h | h
        · exact ih _ _ h
        · exact ⟨n % 10, Nat.mod_lt n (by omega), h⟩

theorem digitChar_ne_slash : ∀ d, d < 10 → digitChar d ≠ '/' := by decide

theorem decChars_no_slash {n : Nat} {c : Char} (h : c ∈ decChars n) :
    c ≠ '/' := by
  rcases decCharsAux_digits _ _ _ h with ⟨d, hd, rfl⟩
  exact digitChar_ne_slash d hd

/-! ### `ensure_unique_path`: candidate injectivity, pigeonhole, loop spec -/

theorem string_append_data (a b : String) : (a ++ b).data = a.data ++ b.data := by
  simp [String.data_append]

theorem string_ext {a b : String} (h : a.data = b.data) : a = b := String.ext h

theorem startsWithL_head (l : List Char) (c : Char) :
    startsWithL l [c] = true ↔ l.head? = some c := by
  rw [startsWithL, List.isPrefixOf_iff_prefix]
  cases l with
  | nil => simp
  | cons h t =>
      simp only [List.prefix_cons_iff, List.head?_cons, Option.some.injEq]
      constructor
      · rintro (habs | ⟨t1, heq, _⟩)
        · exact absurd habs (by simp)
        · injection heq with h1 _
          exact h1.symm
      · intro hh
        exact Or.inr ⟨[], by rw [hh], List.nil_prefix⟩

theorem joinPath_right_inj {d x y : String}
    (hhead : x.data.head? = y.data.head?) (h : joinPath d x = joinPath d y) :
    x = y := by
  unfold joinPath at h
  by_cases hx : startsWithL x.data ['/'] = true
  · have hy : startsWithL y.data ['/'] = true := by
      rw [startsWithL_head] at hx ⊢
      rw [← hhead]; exact hx
    rwa [if_pos hx, if_pos hy] at h
  · have hy : ¬ startsWithL y.data ['/'] = true := by
      rw [startsWithL_head] at hx ⊢
      rw [← hhead]; exact hx
    rw [if_neg hx, if_neg hy] at h
    by_cases hd : (d.data = [] || d.data.getLast? = some '/') = true
    · rw [if_pos hd, if_pos hd] at h
      have := congrArg String.data h
      rw [string_append_data, string_append_data] at this
      exact string_ext (List.append_cancel_left this)
    · rw [if_neg hd, if_neg hd] at h
      have := congrArg String.data h
      rw [string_append_data, string_append_data] at this
      exact string_ext (List.append_cancel_left this)

theorem mkCand_inj {d s e : String} {i j : Nat}
    (h : mkCand d s e i = mkCand d s e j) : i = j := by
  unfold mkCand at h
  have hhead : (s ++ "-" ++ natToDec i ++ e).data.head? =
      (s ++ "-" ++ natToDec j ++ e).data.head? := by
    simp only [string_append_data]
    rcases s.data with _ | ⟨c, t⟩ <;> simp [List.head?_append, String.data]
  have hxy := joinPath_right_inj hhead h
  have hdata := congrArg String.data hxy
  simp only [string_append_data, List.append_assoc] at hdata
  have h1 := List.append_cancel_left hdata
  have h2 := List.append_cancel_left h1
  have h3 : (natToDec i).data = (natToDec j).data := List.append_cancel_right h2
  exact natToDec_inj (string_ext h3)

theorem mkCand_exists_free (exist : List String) (d s e : String) (i : Nat) :
    ∃ j, i ≤ j ∧ j ≤ i + exist.length ∧ mkCand d s e j ∉ exist := by
  by_contra hcon
  push_neg at hcon
  have hmaps : ∀ k ∈ Finset.range (exist.length + 1),
      mkCand d s e (i + k) ∈ exist.toFinset := by
    intro k hk
    rw [List.mem_toFinset]
    exact hcon (i + k) (Nat.le_add_right i k)
      (by simpa using Nat.add_le_add_left (Nat.lt_succ_iff.mp (Finset.mem_range.mp hk)) i)
  have hinj : Set.InjOn (fun k => mkCand d s e (i + k)) (Finset.range (exist.length + 1)) := by
    intro a _ b _ hab
    have := mkCand_inj hab
    omega
  have hcard := Finset.card_le_card_of_injOn _ hmaps hinj
  rw [Finset.card_range] at hcard
  have := List.toFinset_card_le exist
  omega

theorem probeLoop_spec (exist : List String) (d s e : String) :
    ∀ fuel i, (∃ j, i ≤ j ∧ j ≤ i + fuel ∧ mkCand d s e j ∉ exist) →
    ∃ j, probeLoop exist d s e i fuel = mkCand d s e j ∧ i ≤ j ∧
      mkCand d s e j ∉ exist ∧ ∀ k, i ≤ k → k < j → mkCand d s e k ∈ exist := by
  intro fuel
  induction fuel with
  | zero =>
      intro i ⟨j, hij, hji, hfree⟩
      have : j = i := by omega
      subst this
      exact ⟨j, rfl, Nat.le_refl j, hfree, fun k h1 h2 => absurd (Nat.lt_of_le_of_lt h1 h2) (Nat.lt_irrefl j)⟩
  | succ fuel ih =>
      intro i ⟨j, hij, hji, hfree⟩
      rw [probeLoop]
      by_cases hmem : exist.contains (mkCand d s e i) = true
      · rw [if_pos hmem]
        have hmem' : mkCand d s e i ∈ exist := List.elem_iff.mp hmem
        have hne : j ≠ i := by rintro rfl; exact hfree hmem'
        obtain ⟨j', hmk, hij', hfree', hfirst⟩ := ih (i + 1)
          ⟨j, by omega, by omega, hfree⟩
        refine ⟨j', hmk, by omega, hfree', fun k h1 h2 => ?_⟩
        rcases Nat.eq_or_lt_of_le h1 with h | h
        · subst h; exact hmem'
        · exact hfirst k h h2
      · rw [if_neg hmem]
        exact ⟨i, rfl, Nat.le_refl i,
          fun hin => hmem (List.elem_iff.mpr hin),
          fun k h1 h2 => absurd (Nat.lt_of_le_of_lt h1 h2) (Nat.lt_irrefl i)⟩

theorem ensure_unique_eq_of_free {exist : List String} {target : String}
    (h : target ∉ exist) : ensure_unique_path exist target = target := by
  unfold ensure_unique_path
  rw [if_pos]
  simpa using fun hc => h (List.elem_iff.mp hc)

theorem ensure_unique_spec_of_mem {exist : List String} {target : String}
    (h : target ∈ exist) :
    ∃ j, 1 ≤ j ∧
      ensure_unique_path exist target =
        mkCand (splitPath target).1 (splitext (splitPath target).2).1
          (splitext (splitPath target).2).2 j ∧
      mkCand (splitPath target).1 (splitext (splitPath target).2).1
          (splitext (splitPath target).2).2 j ∉ exist ∧
      ∀ k, 1 ≤ k → k < j →
        mkCand (splitPath target).1 (splitext (splitPath target).2).1
          (splitext (splitPath target).2).2 k ∈ exist := by
  unfold ensure_unique_path
  rw [if_neg (by simpa using List.elem_iff.mpr h)]
  obtain ⟨j0, h1, h2, hfree⟩ := mkCand_exists_free exist (splitPath target).1
    (splitext (splitPath target).2).1 (splitext (splitPath target).2).2 1
  obtain ⟨j, hmk, hij, hfree', hfirst⟩ := probeLoop_spec exist _ _ _
    (exist.length + 1) 1 ⟨j0, h1, by omega, hfree⟩
  exact ⟨j, hij, hmk, hfree', hfirst⟩

theorem ensure_unique_not_exist (exist : List String) (target : String) :
    ensure_unique_path exist target ∉ exist := by
  by_cases h : target ∈ exist
  · obtain ⟨j, _, heq, hfree, _⟩ := ensure_unique_spec_of_mem h
    rw [heq]; exact hfree
  · rw [ensure_unique_eq_of_free h]; exact h

/-! ### Path component lemmas -/

theorem takeWhile_append_of_all {p : Char → Bool} {x : List Char}
    (h : ∀ c ∈ x, p c = true) (y : List Char) :
    (x ++ y).takeWhile p = x ++ y.takeWhile p := by
  induction x with
  | nil => simp
  | cons c t ih =>
      have hc := h c (List.mem_cons_self c t)
      have iht := ih (fun c' hc' => h c' (List.mem_cons_of_mem _ hc'))
      simp [List.takeWhile_cons, hc, iht]

theorem takeWhile_append_of_exists {p : Char → Bool} {x : List Char}
    (h : ∃ c ∈ x, ¬ p c = true) (y : List Char) :
    (x ++ y).takeWhile p = x.takeWhile p := by
  induction x with
  | nil => rcases h with ⟨c, hc, _⟩; simp at hc
  | cons c t ih =>
      by_cases hpc : p c = true
      · have iht : List.takeWhile p (t ++ y) = List.takeWhile p t := by
          apply ih
          rcases h with ⟨c', hc', hp'⟩
          rcases List.mem_cons.mp hc' with rfl | h'
          · exact absurd hpc hp'
          · exact ⟨c', h', hp'⟩
        simp [List.takeWhile_cons, hpc, iht]
      · rw [Bool.not_eq_true] at hpc
        simp [List.takeWhile_cons, hpc]

theorem lastCompL_append (a b : List Char) :
    lastCompL (a ++ b) = if '/' ∈ b then lastCompL b else lastCompL a ++ b := by
  unfold lastCompL
  rw [List.reverse_append]
  by_cases h : '/' ∈ b
  · rw [if_pos h, takeWhile_append_of_exists]
    exact ⟨'/', List.mem_reverse.mpr h, by simp⟩
  · rw [if_neg h, takeWhile_append_of_all, List.reverse_append, List.reverse_reverse]
    intro c hc
    have hcb : c ∈ b := List.mem_reverse.mp hc
    have : c ≠ '/' := fun hcc => h (hcc ▸ hcb)
    simpa using this

theorem lastCompL_no_slash (l : List Char) : '/' ∉ lastCompL l := by
  unfold lastCompL
  intro h
  have h1 := List.mem_reverse.mp h
  have h2 := List.mem_takeWhile_imp h1
  simp at h2

theorem lastCompL_of_no_slash {l : List Char} (h : '/' ∉ l) : lastCompL l = l := by
  unfold lastCompL
  have : l.reverse.takeWhile (fun c => c ≠ '/') = l.reverse := by
    rw [List.takeWhile_eq_self_iff]
    intro c hc
    have : c ≠ '/' := fun hcc => h (hcc ▸ List.mem_reverse.mp hc)
    simpa using this
  rw [this, List.reverse_reverse]

theorem lastCompL_append_slash (z : List Char) : lastCompL (z ++ ['/']) = [] := by
  unfold lastCompL
  rw [List.reverse_append]
  simp [List.takeWhile]

theorem lastCompL_of_ends_slash {l : List Char} (h : l.getLast? = some '/') :
    lastCompL l = [] := by
  unfold lastCompL
  rw [← List.head?_reverse] at h
  cases hr : l.reverse with
  | nil => rw [hr] at h; simp at h
  | cons c t =>
      rw [hr] at h
      simp only [List.head?_cons, Option.some.injEq] at h
      subst h
      simp [List.takeWhile]

theorem lastCompL_nil : lastCompL [] = [] := rfl

theorem slash_data : ("/" : String).data = ['/'] := rfl

theorem lastCompL_joinPath (a b : String) :
    lastCompL (joinPath a b).data = lastCompL b.data := by
  unfold joinPath
  by_cases h1 : startsWithL b.data ['/'] = true
  · rw [if_pos h1]
  · rw [if_neg h1]
    by_cases h2 : (a.data = [] || a.data.getLast? = some '/') = true
    · rw [if_pos h2, string_append_data, lastCompL_append]
      by_cases hb : '/' ∈ b.data
      · rw [if_pos hb]
      · rw [if_neg hb, lastCompL_of_no_slash hb]
        rcases Bool.or_eq_true_iff.mp h2 with h3 | h3
        · rw [decide_eq_true_iff.mp h3, lastCompL_nil, List.nil_append]
        · rw [lastCompL_of_ends_slash (decide_eq_true_iff.mp h3), List.nil_append]
    · rw [if_neg h2]
      have hd : (a ++ "/" ++ b).data = (a.data ++ ['/']) ++ b.data := by
        rw [string_append_data, string_append_data, slash_data, List.append_assoc]
      rw [hd, lastCompL_append]
      by_cases hb : '/' ∈ b.data
      · rw [if_pos hb]
      · rw [if_neg hb, lastCompL_append_slash, List.nil_append,
          lastCompL_of_no_slash hb]

theorem splitPath_snd (p : String) :
    (splitPath p).2 = String.mk (lastCompL p.data) := rfl

/-- The well-formedness invariant of `os.path.split`'s head output: either
all slashes or no trailing slash. -/
def headInv (d : String) : Prop :=
  d.data.all (fun c => c = '/') = true ∨ d.data.getLast? ≠ some '/'

theorem dropWhile_head_false {p : Char → Bool} :
    ∀ (l : List Char) (c : Char) (t : List Char),
      l.dropWhile p = c :: t → p c = false := by
  intro l
  induction l with
  | nil => intro c t h; simp [List.dropWhile] at h
  | cons a l ih =>
      intro c t h
      rw [List.dropWhile_cons] at h
      by_cases hpa : p a = true
      · rw [if_pos hpa] at h
        exact ih c t h
      · rw [Bool.not_eq_true] at hpa
        rw [hpa] at h
        simp only [Bool.false_eq_true, if_false, List.cons.injEq] at h
        rw [← h.1]
        exact hpa

theorem headInv_splitHeadL (l : List Char) :
    (splitHeadL l).all (fun c => c = '/') = true ∨
      (splitHeadL l).getLast? ≠ some '/' := by
  unfold splitHeadL
  by_cases h : ((l.take (l.length - (lastCompL l).length)).all
      (fun c => decide (c = '/'))) = true
  · rw [if_pos h]
    exact Or.inl h
  · rw [if_neg h]
    right
    intro hlast
    rw [List.getLast?_reverse] at hlast
    rcases hd : (l.take (l.length - (lastCompL l).length)).reverse.dropWhile
        (fun c => decide (c = '/')) with _ | ⟨c, t⟩
    · rw [hd] at hlast; simp at hlast
    · rw [hd] at hlast
      simp only [List.head?_cons, Option.some.injEq] at hlast
      have hhd := dropWhile_head_false _ _ _ hd
      rw [hlast] at hhd
      simp at hhd

theorem headInv_splitPath (p : String) : headInv (splitPath p).1 :=
  headInv_splitHeadL p.data

/-! ### Split / join round trips -/

theorem dropWhile_eq_self_of_head {p : Char → Bool} {l : List Char}
    (h : ∀ c, l.head? = some c → p c = false) : l.dropWhile p = l := by
  cases l with
  | nil => rfl
  | cons c t =>
      rw [List.dropWhile_cons, h c rfl]
      simp

theorem rev_decomp (q : Char → Bool) (l : List Char) :
    l = (l.reverse.dropWhile q).reverse ++ (l.reverse.takeWhile q).reverse := by
  calc l = l.reverse.reverse := (List.reverse_reverse l).symm
  _ = (l.reverse.takeWhile q ++ l.reverse.dropWhile q).reverse := by
      rw [List.takeWhile_append_dropWhile]
  _ = (l.reverse.dropWhile q).reverse ++ (l.reverse.takeWhile q).reverse :=
      List.reverse_append _ _

theorem joinPath_data_of_branch (d x : String)
    (hx : ¬ startsWithL x.data ['/'] = true) :
    (d.data = [] ∧ (joinPath d x).data = x.data) ∨
    (d.data.getLast? = some '/' ∧ (joinPath d x).data = d.data ++ x.data) ∨
    (d.data ≠ [] ∧ d.data.getLast? ≠ some '/' ∧
      (joinPath d x).data = (d.data ++ ['/']) ++ x.data) := by
  unfold joinPath
  rw [if_neg hx]
  by_cases h2 : (d.data = [] || d.data.getLast? = some '/') = true
  · rw [if_pos h2]
    rcases Bool.or_eq_true_iff.mp h2 with h3 | h3
    · left
      refine ⟨decide_eq_true_iff.mp h3, ?_⟩
      rw [string_append_data, decide_eq_true_iff.mp h3, List.nil_append]
    · right; left
      exact ⟨decide_eq_true_iff.mp h3, string_append_data d x⟩
  · rw [if_neg h2]
    right; right
    rw [Bool.or_eq_true_iff] at h2
    push_neg at h2
    refine ⟨fun hd => ?_, fun hd => ?_, ?_⟩
    · exact h2.1 (decide_eq_true_iff.mpr hd)
    · exact h2.2 (decide_eq_true_iff.mpr hd)
    · rw [string_append_data, string_append_data, slash_data, List.append_assoc]

theorem splitHeadL_append {D x : List Char} (hx : '/' ∉ x)
    (hD : D.getLast? = some '/' ∨ D = []) :
    splitHeadL (D ++ x) = if D.all (fun c => c = '/') then D
      else (D.reverse.dropWhile (fun c => c = '/')).reverse := by
  have hDlast : lastCompL D = [] := by
    rcases hD with h | h
    · exact lastCompL_of_ends_slash h
    · rw [h]; rfl
  have hlast : lastCompL (D ++ x) = x := by
    rw [lastCompL_append, if_neg hx, hDlast, List.nil_append]
  unfold splitHeadL
  rw [hlast]
  have htake : (D ++ x).take ((D ++ x).length - x.length) = D := by
    rw [List.length_append, Nat.add_sub_cancel]
    exact List.take_left D x
  rw [htake]

theorem getLast?_of_all_slash {l : List Char}
    (hall : l.all (fun c => c = '/') = true) (hne : l ≠ []) :
    l.getLast? = some '/' := by
  rw [List.getLast?_eq_getLast _ hne]
  have hmem := List.getLast_mem hne
  have := List.all_eq_true.mp hall _ hmem
  simp only [decide_eq_true_eq] at this
  rw [this]

theorem splitPath_joinPath {d x : String} (hinv : headInv d)
    (hx : '/' ∉ x.data) (hxne : x.data ≠ []) :
    splitPath (joinPath d x) = (d, x) := by
  have hstart : ¬ startsWithL x.data ['/'] = true := by
    rw [startsWithL_head]
    cases hxd : x.data with
    | nil => exact absurd hxd hxne
    | cons c t =>
        simp only [List.head?_cons, Option.some.injEq]
        intro hc
        exact hx (by rw [hxd, hc]; exact List.mem_cons_self _ _)
  have h2 : lastCompL (joinPath d x).data = x.data := by
    rw [lastCompL_joinPath]
    exact lastCompL_of_no_slash hx
  have h1 : splitHeadL (joinPath d x).data = d.data := by
    rcases joinPath_data_of_branch d x hstart with ⟨hd0, hdata⟩ | ⟨hdl, hdata⟩ |
      ⟨hdne, hdl, hdata⟩
    · rw [hdata, hd0]
      have := splitHeadL_append (D := []) hx (Or.inr rfl)
      simpa using this
    · rw [hdata, splitHeadL_append hx (Or.inl hdl)]
      have hall : d.data.all (fun c => c = '/') = true := by
        rcases hinv with h | h
        · exact h
        · exact absurd hdl h
      rw [if_pos hall]
    · rw [hdata, splitHeadL_append hx (Or.inl (List.getLast?_concat _))]
      have hnall : ¬ (d.data ++ ['/']).all (fun c => c = '/') = true := by
        intro hall
        have : d.data.all (fun c => c = '/') = true := by
          rw [List.all_append] at hall
          exact (Bool.and_eq_true_iff.mp hall).1
        exact hdl (getLast?_of_all_slash this hdne)
      rw [if_neg hnall]
      rw [List.reverse_append]
      simp only [List.reverse_singleton, List.singleton_append, List.dropWhile_cons]
      rw [if_pos (by simp)]
      rw [dropWhile_eq_self_of_head, List.reverse_reverse]
      intro c hc
      rw [List.head?_reverse] at hc
      simp only [decide_eq_false_iff_not]
      intro hcc
      rw [hcc] at hc
      exact hdl hc
  calc splitPath (joinPath d x) = (String.mk d.data, String.mk x.data) := by
        unfold splitPath
        rw [h1, h2]
  _ = (d, x) := rfl

/-! ### `splitext` structure lemmas -/

theorem take_append_cancel {A B l : List Char} (hA : l = A ++ B) :
    l.take (l.length - B.length) ++ B = l := by
  subst hA
  rw [List.length_append, Nat.add_sub_cancel, List.take_left]

theorem lastCompL_suffix (l : List Char) : ∃ A, l = A ++ lastCompL l := by
  unfold lastCompL
  exact ⟨(l.reverse.dropWhile _).reverse, rev_decomp _ l⟩

theorem base_decomp (l : List Char) :
    l.take (l.length - (lastCompL l).length) ++ lastCompL l = l := by
  obtain ⟨A, hA⟩ := lastCompL_suffix l
  exact take_append_cancel hA

theorem base_dot_decomp {b : List Char}
    (hlen : ((b.reverse.takeWhile (fun c => c ≠ '.')).reverse).length ≠ b.length) :
    b.take (b.length - (((b.reverse.takeWhile (fun c => c ≠ '.')).reverse).length + 1)) ++
      '.' :: (b.reverse.takeWhile (fun c => c ≠ '.')).reverse = b := by
  have hdec := rev_decomp (fun c => decide ¬(c = '.')) b
  set ep := (b.reverse.takeWhile (fun c => decide ¬(c = '.'))).reverse with hep
  set D := (b.reverse.dropWhile (fun c => decide ¬(c = '.'))).reverse with hD
  have hDne : b.reverse.dropWhile (fun c => decide ¬(c = '.')) ≠ [] := by
    intro h0
    apply hlen
    rw [hdec, hD, h0]
    simp
  rcases hdw : b.reverse.dropWhile (fun c => decide ¬(c = '.')) with _ | ⟨c, t⟩
  · exact absurd hdw hDne
  · have hc : c = '.' := by
      have := dropWhile_head_false _ _ _ hdw
      simpa using this
    subst hc
    have hb2 : b = t.reverse ++ '.' :: ep := by
      conv_lhs => rw [hdec]
      rw [hD, hdw, List.reverse_cons, List.append_assoc, List.singleton_append]
    have := take_append_cancel hb2
    rw [List.length_cons] at this
    exact this

theorem splitextL_concat (l : List Char) :
    (splitextL l).1 ++ (splitextL l).2 = l := by
  unfold splitextL
  by_cases h1 : (((lastCompL l).reverse.takeWhile (fun c => c ≠ '.')).reverse).length
      = (lastCompL l).length
  · simp only [h1, if_true]
    simp
  · simp only [h1, if_false]
    by_cases h2 : ((lastCompL l).take ((lastCompL l).length -
        ((((lastCompL l).reverse.takeWhile (fun c => c ≠ '.')).reverse).length + 1))).any
        (fun c => c ≠ '.') = true
    · simp only [h2, if_true]
      rw [List.append_assoc, base_dot_decomp h1, base_decomp]
    · simp only [h2, if_false]
      simp

theorem splitextL_of_decomp {s e l : List Char} (hl : l = s ++ '.' :: e)
    (hslash : '/' ∉ l) (hdot : '.' ∉ e) (hs : ∃ c ∈ s, c ≠ '.') :
    splitextL l = (s, '.' :: e) := by
  have hbase : lastCompL l = l := lastCompL_of_no_slash hslash
  have hext : (l.reverse.takeWhile (fun c => decide ¬(c = '.'))).reverse = e := by
    have hrev : l.reverse = e.reverse ++ ('.' :: s.reverse) := by
      rw [hl, List.reverse_append, List.reverse_cons, List.append_assoc,
        List.singleton_append]
    rw [hrev, takeWhile_append_of_all]
    · rw [List.takeWhile_cons]
      simp
    · intro c hc
      have hce : c ∈ e := List.mem_reverse.mp hc
      simp only [decide_eq_true_eq]
      intro hcc
      exact hdot (hcc ▸ hce)
  have hlen : ¬ ((l.reverse.takeWhile (fun c => decide ¬(c = '.'))).reverse).length
      = l.length := by
    rw [hext, hl]
    simp only [List.length_append, List.length_cons]
    omega
  have hstem : l.take (l.length -
      (((l.reverse.takeWhile (fun c => decide ¬(c = '.'))).reverse).length + 1)) = s := by
    rw [hext]
    have := take_append_cancel hl
    rw [List.length_cons] at this
    have hlw : l.length - (e.length + 1) = s.length := by
      rw [hl]
      simp [List.length_append]
    rw [hlw, hl, List.take_left]
  have hany : (l.take (l.length -
      (((l.reverse.takeWhile (fun c => decide ¬(c = '.'))).reverse).length + 1))).any
      (fun c => c ≠ '.') = true := by
    rw [hstem, List.any_eq_true]
    rcases hs with ⟨c, hc, hcne⟩
    exact ⟨c, hc, by simpa using hcne⟩
  unfold splitextL
  rw [hbase]
  rw [if_neg hlen, if_pos hany, hext]
  rw [hext] at hstem
  rw [Nat.sub_self, List.take_zero, List.nil_append, hstem]

theorem splitextL_inv {l : List Char} (hslash : '/' ∉ l)
    (hne : (splitextL l).2 ≠ []) :
    ∃ s e, l = s ++ '.' :: e ∧ splitextL l = (s, '.' :: e) ∧ '.' ∉ e ∧
      ∃ c ∈ s, c ≠ '.' := by
  have hbase : lastCompL l = l := lastCompL_of_no_slash hslash
  by_cases h1 : (((l.reverse.takeWhile (fun c => c ≠ '.')).reverse).length = l.length)
  · exfalso
    apply hne
    unfold splitextL
    rw [hbase, if_pos h1]
  · by_cases h2 : ((l.take (l.length -
        (((l.reverse.takeWhile (fun c => c ≠ '.')).reverse).length + 1))).any
        (fun c => c ≠ '.')) = true
    · refine ⟨l.take (l.length -
          (((l.reverse.takeWhile (fun c => c ≠ '.')).reverse).length + 1)),
        (l.reverse.takeWhile (fun c => c ≠ '.')).reverse, ?_, ?_, ?_, ?_⟩
      · exact (base_dot_decomp h1).symm
      · unfold splitextL
        rw [hbase, if_neg h1, if_pos h2]
        rw [Nat.sub_self, List.take_zero, List.nil_append]
      · intro hdot
        have h3 := List.mem_reverse.mp hdot
        have h4 := List.mem_takeWhile_imp h3
        simp at h4
      · rw [List.any_eq_true] at h2
        rcases h2 with ⟨c, hc, hcne⟩
        exact ⟨c, hc, by simpa using hcne⟩
    · exfalso
      apply hne
      unfold splitextL
      rw [hbase, if_neg h1, if_neg h2]

theorem extOfL_base (l : List Char) :
    (splitextL l).2 = (splitextL (lastCompL l)).2 := by
  have hlcl : lastCompL (lastCompL l) = lastCompL l :=
    lastCompL_of_no_slash (lastCompL_no_slash l)
  unfold splitextL
  rw [hlcl]
  by_cases h1 : ((((lastCompL l).reverse.takeWhile (fun c => c ≠ '.')).reverse).length
      = (lastCompL l).length)
  · rw [if_pos h1, if_pos h1]
  · rw [if_neg h1, if_neg h1]
    by_cases h2 : (((lastCompL l).take ((lastCompL l).length -
        ((((lastCompL l).reverse.takeWhile (fun c => c ≠ '.')).reverse).length + 1))).any
        (fun c => c ≠ '.')) = true
    · rw [if_pos h2, if_pos h2]
    · rw [if_neg h2, if_neg h2]

/-! ### Shape of the resolved target's final component -/

theorem underscore_data : ("_" : String).data = ['_'] := rfl

theorem build_data (p pfx : String) :
    (pfx ++ "_" ++ (splitPath p).2).data = pfx.data ++ '_' :: lastCompL p.data := by
  rw [string_append_data, string_append_data, underscore_data, List.append_assoc,
    List.singleton_append]
  rfl

theorem lastCompL_build (p pfx : String) :
    lastCompL (build_prefixed_name p pfx).data =
      lastCompL pfx.data ++ '_' :: lastCompL p.data := by
  have hns : '/' ∉ '_' :: lastCompL p.data := by
    intro hmem
    rcases List.mem_cons.mp hmem with h | h
    · exact absurd h (by decide)
    · exact lastCompL_no_slash _ h
  unfold build_prefixed_name
  rw [lastCompL_joinPath, build_data, lastCompL_append, if_neg hns]

theorem mkCand_lastComp (directory stem ext : String) (j : Nat)
    (hs : '/' ∉ stem.data) (he : '/' ∉ ext.data) :
    lastCompL (mkCand directory stem ext j).data =
      stem.data ++ '-' :: (decChars j ++ ext.data) := by
  unfold mkCand
  rw [lastCompL_joinPath]
  have hdata : (stem ++ "-" ++ natToDec j ++ ext).data =
      stem.data ++ '-' :: (decChars j ++ ext.data) := by
    rw [string_append_data, string_append_data, string_append_data]
    rw [show ("-" : String).data = ['-'] from rfl]
    rw [List.append_assoc, List.append_assoc, List.singleton_append]
    rfl
  rw [hdata, lastCompL_of_no_slash]
  intro hmem
  rcases List.mem_append.mp hmem with h | h
  · exact hs h
  · rcases List.mem_cons.mp h with h' | h'
    · exact absurd h' (by decide)
    · rcases List.mem_append.mp h' with h'' | h''
      · exact decChars_no_slash h'' rfl
      · exact he h''

set_option maxHeartbeats 1000000 in
theorem ensure_build_shape (exist : List String) (path pfx : String) :
    '_' ∈ lastCompL (ensure_unique_path exist (build_prefixed_name path pfx)).data ∧
    (lastCompL path.data).length <
      (lastCompL (ensure_unique_path exist (build_prefixed_name path pfx)).data).length := by
  set t := build_prefixed_name path pfx with ht
  have hflc : lastCompL t.data = lastCompL pfx.data ++ '_' :: lastCompL path.data :=
    lastCompL_build path pfx
  by_cases hmem : t ∈ exist
  · obtain ⟨j, hj1, heq, _, _⟩ := ensure_unique_spec_of_mem hmem
    rw [heq]
    have hstem : ((splitext (splitPath t).2).1).data ++
        ((splitext (splitPath t).2).2).data = lastCompL t.data := by
      have := splitextL_concat ((splitPath t).2).data
      rw [splitPath_snd] at this
      exact this
    have hsl : '/' ∉ ((splitext (splitPath t).2).1).data := by
      intro h
      have : '/' ∈ lastCompL t.data := by
        rw [← hstem]; exact List.mem_append.mpr (Or.inl h)
      exact lastCompL_no_slash _ this
    have hel : '/' ∉ ((splitext (splitPath t).2).2).data := by
      intro h
      have : '/' ∈ lastCompL t.data := by
        rw [← hstem]; exact List.mem_append.mpr (Or.inr h)
      exact lastCompL_no_slash _ this
    rw [mkCand_lastComp _ _ _ _ hsl hel]
    constructor
    · have hu : '_' ∈ lastCompL t.data := by
        rw [hflc]
        exact List.mem_append.mpr (Or.inr (List.mem_cons_self _ _))
      rw [← hstem] at hu
      rcases List.mem_append.mp hu with h | h
      · exact List.mem_append.mpr (Or.inl h)
      · exact List.mem_append.mpr (Or.inr (List.mem_cons_of_mem _
          (List.mem_append.mpr (Or.inr h))))
    · have hlen : ((splitext (splitPath t).2).1).data.length +
          ((splitext (splitPath t).2).2).data.length = (lastCompL t.data).length := by
        rw [← hstem, List.length_append]
      have hflen : (lastCompL t.data).length =
          (lastCompL pfx.data).length + 1 + (lastCompL path.data).length := by
        rw [hflc]
        simp [List.length_append]
        omega
      simp only [List.length_append, List.length_cons]
      omega
  · rw [ensure_unique_eq_of_free hmem, hflc]
    constructor
    · exact List.mem_append.mpr (Or.inr (List.mem_cons_self _ _))
    · simp [List.length_append]
      omega

/-! ### Shape of a renamed file's name (prefix kept, extension kept) -/

theorem splitext_snd_data (f : String) :
    ((splitext f).2).data = (splitextL f.data).2 := rfl

theorem splitext_fst_data (f : String) :
    ((splitext f).1).data = (splitextL f.data).1 := rfl

theorem prefixed_splitext {pfxl sf ef : List Char}
    (hpfx : '/' ∉ pfxl) (hsl : '/' ∉ sf ++ '.' :: ef) (hefdot : '.' ∉ ef) :
    splitextL (pfxl ++ '_' :: (sf ++ '.' :: ef)) = (pfxl ++ '_' :: sf, '.' :: ef) := by
  have hdec : pfxl ++ '_' :: (sf ++ '.' :: ef) = (pfxl ++ '_' :: sf) ++ '.' :: ef := by
    rw [List.append_assoc, List.cons_append]
  rw [hdec]
  apply splitextL_of_decomp rfl
  · intro h
    rcases List.mem_append.mp h with h' | h'
    · rcases List.mem_append.mp h' with h'' | h''
      · exact hpfx h''
      · rcases List.mem_cons.mp h'' with h3 | h3
        · exact absurd h3 (by decide)
        · exact hsl (List.mem_append.mpr (Or.inl h3))
    · exact hsl (List.mem_append.mpr (Or.inr h'))
  · exact hefdot
  · exact ⟨'_', List.mem_append.mpr (Or.inr (List.mem_cons_self _ _)), by decide⟩

theorem suffixed_splitext {s2 dc ef : List Char}
    (hslash : '/' ∉ s2 ++ '-' :: (dc ++ '.' :: ef)) (hefdot : '.' ∉ ef) :
    splitextL (s2 ++ '-' :: (dc ++ '.' :: ef)) = (s2 ++ '-' :: dc, '.' :: ef) := by
  have hdec : s2 ++ '-' :: (dc ++ '.' :: ef) = (s2 ++ '-' :: dc) ++ '.' :: ef := by
    rw [List.append_assoc, List.cons_append]
  rw [hdec]
  apply splitextL_of_decomp rfl
  · rw [← hdec]; exact hslash
  · exact hefdot
  · exact ⟨'-', List.mem_append.mpr (Or.inr (List.mem_cons_self _ _)), by decide⟩

set_option maxHeartbeats 1000000 in
theorem ensure_build_renamed_shape (exist : List String) (path pfx : String)
    (hpfx : '/' ∉ pfx.data) (hext : (splitextL path.data).2 ≠ []) :
    startsWithL
      (lastCompL (ensure_unique_path exist (build_prefixed_name path pfx)).data)
      (pfx.data ++ ['_']) = true ∧
    (splitextL (ensure_unique_path exist (build_prefixed_name path pfx)).data).2 =
      (splitextL path.data).2 := by
  have hfnext : (splitextL (lastCompL path.data)).2 ≠ [] := by
    rw [← extOfL_base]
    exact hext
  obtain ⟨sf, ef, hfneq, hfnsplit, hefdot, hsfany⟩ :=
    splitextL_inv (lastCompL_no_slash _) hfnext
  have hsl : '/' ∉ sf ++ '.' :: ef := by
    rw [← hfneq]; exact lastCompL_no_slash _
  set t := build_prefixed_name path pfx with ht
  have hflc : lastCompL t.data = pfx.data ++ '_' :: (sf ++ '.' :: ef) := by
    rw [ht, lastCompL_build, lastCompL_of_no_slash hpfx, hfneq]
  have hflc_split : splitextL (lastCompL t.data) = (pfx.data ++ '_' :: sf, '.' :: ef) := by
    rw [hflc]
    exact prefixed_splitext hpfx hsl hefdot
  have hextgoal : (splitextL path.data).2 = '.' :: ef := by
    rw [extOfL_base, hfnsplit]
  by_cases hmem : t ∈ exist
  · obtain ⟨j, hj1, heq, _, _⟩ := ensure_unique_spec_of_mem hmem
    rw [heq]
    have hstemdata : ((splitext (splitPath t).2).1).data = pfx.data ++ '_' :: sf := by
      rw [splitext_fst_data, splitPath_snd]
      show (splitextL (lastCompL t.data)).1 = _
      rw [hflc_split]
    have hextdata : ((splitext (splitPath t).2).2).data = '.' :: ef := by
      rw [splitext_snd_data, splitPath_snd]
      show (splitextL (lastCompL t.data)).2 = _
      rw [hflc_split]
    have hssl : '/' ∉ ((splitext (splitPath t).2).1).data := by
      rw [hstemdata]
      intro h
      rcases List.mem_append.mp h with h' | h'
      · exact hpfx h'
      · rcases List.mem_cons.mp h' with h3 | h3
        · exact absurd h3 (by decide)
        · exact hsl (List.mem_append.mpr (Or.inl h3))
    have hesl : '/' ∉ ((splitext (splitPath t).2).2).data := by
      rw [hextdata]
      intro h
      rcases List.mem_cons.mp h with h3 | h3
      · exact absurd h3 (by decide)
      · exact hsl (List.mem_append.mpr (Or.inr (List.mem_cons_of_mem _ h3)))
    have hlc := mkCand_lastComp (splitPath t).1 (splitext (splitPath t).2).1
      (splitext (splitPath t).2).2 j hssl hesl
    rw [hstemdata, hextdata] at hlc
    have hlc2 : lastCompL (mkCand (splitPath t).1 (splitext (splitPath t).2).1
        (splitext (splitPath t).2).2 j).data =
        (pfx.data ++ ['_']) ++ (sf ++ '-' :: (decChars j ++ '.' :: ef)) := by
      rw [hlc]
      simp [List.append_assoc]
    constructor
    · rw [hlc2]
      unfold startsWithL
      rw [List.isPrefixOf_iff_prefix]
      exact ⟨sf ++ '-' :: (decChars j ++ '.' :: ef), rfl⟩
    · rw [extOfL_base, hextgoal]
      have hslash2 : '/' ∉ (pfx.data ++ '_' :: sf) ++ '-' :: (decChars j ++ '.' :: ef) := by
        rw [← hlc]
        exact lastCompL_no_slash _
      rw [hlc, suffixed_splitext hslash2 hefdot]
  · rw [ensure_unique_eq_of_free hmem]
    constructor
    · rw [hflc]
      unfold startsWithL
      rw [List.isPrefixOf_iff_prefix]
      refine ⟨sf ++ '.' :: ef, ?_⟩
      rw [List.append_assoc, List.singleton_append]
    · rw [extOfL_base, hflc_split, hextgoal]

/-! ### `normpath` preserves a well-formed final component -/

theorem lastCompL_cons_slash_mem {c : Char} {l : List Char} (h : '/' ∈ l) :
    lastCompL (c :: l) = lastCompL l := by
  rw [show c :: l = [c] ++ l from rfl, lastCompL_append, if_pos h]

theorem lastCompL_slash_cons (l : List Char) :
    lastCompL ('/' :: l) = lastCompL l := by
  by_cases h : '/' ∈ l
  · exact lastCompL_cons_slash_mem h
  · rw [show '/' :: l = ['/'] ++ l from rfl, lastCompL_append, if_neg h,
      show lastCompL ['/'] = [] from rfl, List.nil_append, lastCompL_of_no_slash h]

theorem splitSlash_cons (c : Char) (t : List Char) {h : List Char}
    {t2 : List (List Char)} (hs : splitSlash t = h :: t2) :
    splitSlash (c :: t) = if c = '/' then [] :: h :: t2 else (c :: h) :: t2 := by
  rw [splitSlash, hs]

theorem splitSlash_dest (t : List Char) :
    ∃ h t2, splitSlash t = h :: t2 := by
  induction t with
  | nil => exact ⟨[], [], rfl⟩
  | cons c t ih =>
      obtain ⟨h, t2, hs⟩ := ih
      rw [splitSlash_cons c t hs]
      by_cases hc : c = '/'
      · rw [if_pos hc]
        exact ⟨[], h :: t2, rfl⟩
      · rw [if_neg hc]
        exact ⟨c :: h, t2, rfl⟩

theorem splitSlash_ne_nil (l : List Char) : splitSlash l ≠ [] := by
  obtain ⟨h, t2, hs⟩ := splitSlash_dest l
  rw [hs]
  exact List.cons_ne_nil h t2

theorem splitSlash_no_slash {l : List Char} (h : '/' ∉ l) : splitSlash l = [l] := by
  induction l with
  | nil => rfl
  | cons c t ih =>
      have hc : c ≠ '/' := fun hc => h (hc ▸ List.mem_cons_self c t)
      have ht : '/' ∉ t := fun hm => h (List.mem_cons_of_mem c hm)
      rw [splitSlash_cons c t (ih ht), if_neg hc]

theorem splitSlash_length (l : List Char) :
    (splitSlash l).length = l.count '/' + 1 := by
  induction l with
  | nil => rfl
  | cons c t ih =>
      obtain ⟨h, t2, hs⟩ := splitSlash_dest t
      rw [hs] at ih
      have ih' : t2.length + 1 = t.count '/' + 1 := by simpa using ih
      rw [splitSlash_cons c t hs]
      by_cases hc : c = '/'
      · rw [if_pos hc]
        subst hc
        simp only [List.length_cons, List.count_cons]
        simp
        omega
      · rw [if_neg hc]
        simp only [List.length_cons, List.count_cons]
        have hbe : (c == '/') = false := by
          simp [hc]
        rw [hbe]
        simp
        omega

theorem splitSlash_last (l : List Char) :
    ∃ t', splitSlash l = t' ++ [lastCompL l] := by
  induction l with
  | nil => exact ⟨[], rfl⟩
  | cons c t ih =>
      obtain ⟨t', ih⟩ := ih
      obtain ⟨h, t2, hs⟩ := splitSlash_dest t
      by_cases hc : c = '/'
      · subst hc
        rw [splitSlash_cons '/' t hs, if_pos rfl, lastCompL_slash_cons, ← hs, ih]
        exact ⟨[] :: t', rfl⟩
      · rw [splitSlash_cons c t hs, if_neg hc]
        by_cases hmem : '/' ∈ t
        · have hlen : (splitSlash t).length ≥ 2 := by
            rw [splitSlash_length]
            have := List.count_pos_iff.mpr hmem
            omega
          rcases ht' : t' with _ | ⟨x, t''⟩
          · rw [ht'] at ih
            rw [ih] at hlen
            simp at hlen
          · rw [ht'] at ih
            rw [hs] at ih
            have hh := List.cons.inj ih
            rw [lastCompL_cons_slash_mem hmem, hh.2]
            exact ⟨(c :: h) :: t'', rfl⟩
        · have hs1 : splitSlash t = [t] := splitSlash_no_slash hmem
          rw [hs1] at hs
          have hh := List.cons.inj hs
          have hfree : '/' ∉ c :: t := by
            intro hm
            rcases List.mem_cons.mp hm with h' | h'
            · exact hc h'.symm
            · exact hmem h'
          rw [lastCompL_of_no_slash hfree, ← hh.1, ← hh.2]
          exact ⟨[], rfl⟩

theorem splitSlash_mem_no_slash {l : List Char} :
    ∀ x ∈ splitSlash l, '/' ∉ x := by
  induction l with
  | nil =>
      intro x hx
      simp only [splitSlash, List.mem_singleton] at hx
      subst hx
      exact List.not_mem_nil '/'
  | cons c t ih =>
      intro x hx
      obtain ⟨h, t2, hs⟩ := splitSlash_dest t
      rw [splitSlash_cons c t hs] at hx
      by_cases hc : c = '/'
      · rw [if_pos hc] at hx
        rcases List.mem_cons.mp hx with h' | h'
        · subst h'; exact List.not_mem_nil '/'
        · exact ih x (hs ▸ h')
      · rw [if_neg hc] at hx
        rcases List.mem_cons.mp hx with h' | h'
        · subst h'
          intro hm
          rcases List.mem_cons.mp hm with h2 | h2
          · exact hc h2.symm
          · exact ih h (hs ▸ List.mem_cons_self h t2) h2
        · exact ih x (hs ▸ List.mem_cons_of_mem h h')

theorem normStep_good (k : Nat) (acc : List (List Char)) {c : List Char}
    (h1 : c ≠ []) (h2 : c ≠ ['.']) (h3 : c ≠ ['.', '.']) :
    normStep k acc c = acc ++ [c] := by
  unfold normStep
  rw [if_neg (by simp [h1, h2]), if_pos (by simp [h3])]

theorem joinComps_concat (xs : List (List Char)) (c : List Char) :
    joinComps (xs ++ [c]) = if xs = [] then c else joinComps xs ++ '/' :: c := by
  induction xs with
  | nil => simp [joinComps]
  | cons x rest ih =>
      cases rest with
      | nil => simp [joinComps]
      | cons y rest' =>
          rw [show joinComps (x :: y :: rest' ++ [c]) =
              x ++ '/' :: joinComps (y :: rest' ++ [c]) from rfl]
          rw [ih]
          rw [if_neg (List.cons_ne_nil y rest'), if_neg (List.cons_ne_nil x (y :: rest'))]
          rw [show joinComps (x :: y :: rest') = x ++ '/' :: joinComps (y :: rest') from rfl]
          simp [List.append_assoc]

theorem lastCompL_replicate_slash (k : Nat) :
    lastCompL (List.replicate k '/') = [] := by
  cases k with
  | zero => rfl
  | succ n =>
      have : List.replicate (n + 1) '/' = List.replicate n '/' ++ ['/'] := by
        rw [← List.replicate_succ' ]
      rw [this, lastCompL_append_slash]

theorem lastCompL_res {k : Nat} {acc : List (List Char)} {c : List Char}
    (hc : '/' ∉ c) :
    lastCompL (List.replicate k '/' ++ joinComps (acc ++ [c])) = c := by
  rw [joinComps_concat]
  rcases ha : acc with _ | ⟨x, rest⟩
  · rw [if_pos rfl, lastCompL_append, if_neg hc, lastCompL_replicate_slash,
      List.nil_append]
  · rw [if_neg (List.cons_ne_nil x rest), lastCompL_append, if_pos
      (List.mem_append.mpr (Or.inr (List.mem_cons_self '/' c))),
      lastCompL_append, if_pos (List.mem_cons_self '/' c), lastCompL_slash_cons,
      lastCompL_of_no_slash hc]

theorem normpath_lastComp {p : String}
    (h1 : lastCompL p.data ≠ []) (h2 : lastCompL p.data ≠ ['.'])
    (h3 : lastCompL p.data ≠ ['.', '.']) :
    lastCompL (normpath p).data = lastCompL p.data := by
  have hpne : p ≠ "" := by
    intro h0
    apply h1
    rw [h0]
    rfl
  unfold normpath
  rw [if_neg hpne]
  dsimp only
  generalize (if startsWithL p.data ['/'] = true then
      if (startsWithL p.data ['/', '/'] && decide
        ¬ startsWithL p.data ['/', '/', '/'] = true) = true then 2 else 1
    else 0) = k
  obtain ⟨t', hcomps⟩ := splitSlash_last p.data
  rw [hcomps, List.foldl_append]
  rw [show List.foldl (normStep k) (List.foldl (normStep k) [] t') [lastCompL p.data] =
    normStep k (List.foldl (normStep k) [] t') (lastCompL p.data) from rfl]
  rw [normStep_good _ _ h1 h2 h3]
  have hc_slash : '/' ∉ lastCompL p.data := lastCompL_no_slash _
  have hres := @lastCompL_res k (List.foldl (normStep k) [] t') (lastCompL p.data) hc_slash
  rw [if_neg]
  · exact hres
  · intro h0
    apply h1
    rw [← hres, h0]
    rfl

theorem abspath_lastComp {cwd p : String}
    (h1 : lastCompL p.data ≠ []) (h2 : lastCompL p.data ≠ ['.'])
    (h3 : lastCompL p.data ≠ ['.', '.']) :
    lastCompL (abspath cwd p).data = lastCompL p.data := by
  unfold abspath
  have hj : lastCompL (joinPath cwd p).data = lastCompL p.data :=
    lastCompL_joinPath cwd p
  rw [normpath_lastComp (hj ▸ h1) (hj ▸ h2) (hj ▸ h3), hj]

theorem abspath_ne_of_lastComp {cwd p q : String}
    (hp1 : lastCompL p.data ≠ []) (hp2 : lastCompL p.data ≠ ['.'])
    (hp3 : lastCompL p.data ≠ ['.', '.'])
    (hq1 : lastCompL q.data ≠ []) (hq2 : lastCompL q.data ≠ ['.'])
    (hq3 : lastCompL q.data ≠ ['.', '.'])
    (hne : lastCompL p.data ≠ lastCompL q.data) :
    abspath cwd p ≠ abspath cwd q := by
  intro heq
  apply hne
  rw [← @abspath_lastComp cwd p hp1 hp2 hp3,
    ← @abspath_lastComp cwd q hq1 hq2 hq3, heq]

theorem underscore_not_bad {w : List Char} (h : '_' ∈ w) :
    w ≠ [] ∧ w ≠ ['.'] ∧ w ≠ ['.', '.'] := by
  refine ⟨?_, ?_, ?_⟩ <;> intro h0 <;> rw [h0] at h <;> simp at h

/-! ### Claim theorems -/

/-- C1: `ensure_unique_path` returns a non-colliding candidate path unchanged;
otherwise it splits the candidate filename into (stem, extension) and returns
the first `<stem>-i<extension>` (i = 1, 2, 3, … probed in increasing order)
that does not exist, so the returned path never already exists.  In
particular, `photo.jpg` with mtime 2024-03-05 14:30:00 and pattern
`%Y-%m-%d-%H-%M-%S` resolves to `2024-03-05-14-30-00_photo.jpg`, and to
`2024-03-05-14-30-00_photo-1.jpg` when that exact name already exists. -/
theorem rename2date_C1_ensure_unique (exist : List String) (target : String) :
    ((target ∉ exist → ensure_unique_path exist target = target) ∧
     (target ∈ exist → ∃ j, 1 ≤ j ∧
        ensure_unique_path exist target =
          mkCand (splitPath target).1 (splitext (splitPath target).2).1
            (splitext (splitPath target).2).2 j ∧
        mkCand (splitPath target).1 (splitext (splitPath target).2).1
            (splitext (splitPath target).2).2 j ∉ exist ∧
        ∀ k, 1 ≤ k → k < j →
          mkCand (splitPath target).1 (splitext (splitPath target).2).1
            (splitext (splitPath target).2).2 k ∈ exist) ∧
     ensure_unique_path exist target ∉ exist) ∧
    ( get_modification_prefix [⟨"photo.jpg", true, some ⟨2024, 3, 5, 14, 30, 0⟩⟩]
        "photo.jpg" "%Y-%m-%d-%H-%M-%S" ⟨2025, 1, 1, 0, 0, 0⟩ =
      "2024-03-05-14-30-00" ∧
     ensure_unique_path ["photo.jpg"]
        (build_prefixed_name "photo.jpg" "2024-03-05-14-30-00") =
      "2024-03-05-14-30-00_photo.jpg" ∧
     ensure_unique_path ["photo.jpg", "2024-03-05-14-30-00_photo.jpg"]
        (build_prefixed_name "photo.jpg" "2024-03-05-14-30-00") =
      "2024-03-05-14-30-00_photo-1.jpg") := by
  refine ⟨⟨fun h => ensure_unique_eq_of_free h,
    fun h => ensure_unique_spec_of_mem h,
    ensure_unique_not_exist exist target⟩, by decide, by decide, by decide⟩

/-- C9: the suffix-probing loop of `ensure_unique_path` terminates: the
filesystem is a finite list, the candidate names `<stem>-i<ext>` are pairwise
distinct, so from any starting index a free candidate is reached within
`|exist| + 1` probes, and the returned path never exists.  (The embedding
gives the loop fuel `|exist| + 1`; the first conjunct shows that fuel is
never exhausted, i.e. the source's unbounded loop always returns.) -/
theorem rename2date_C9_probe_terminates (exist : List String)
    (directory stem ext target : String) (i : Nat) :
    (∃ j, i ≤ j ∧ j ≤ i + exist.length ∧ mkCand directory stem ext j ∉ exist) ∧
    ensure_unique_path exist target ∉ exist := by
  exact ⟨mkCand_exists_free exist directory stem ext i,
    ensure_unique_not_exist exist target⟩

/-- C4: `should_skip_already_prefixed` returns true exactly when the filename
is the string `<prefix>_` followed by anything: a purely textual check on the
currently computed prefix (no rename history is consulted — the function's
only inputs are the two strings). -/
theorem rename2date_C4_skip_textual (filename pfx : String) :
    should_skip_already_prefixed filename pfx = true ↔
      ∃ rest, filename = pfx ++ "_" ++ rest := by
  unfold should_skip_already_prefixed startsWithL
  rw [List.isPrefixOf_iff_prefix]
  constructor
  · rintro ⟨t, ht⟩
    refine ⟨String.mk t, ?_⟩
    apply string_ext
    rw [string_append_data, string_append_data]
    rw [← ht, string_append_data]
  · rintro ⟨rest, hrest⟩
    refine ⟨rest.data, ?_⟩
    rw [hrest, string_append_data, string_append_data, string_append_data]

/-- C5 counterexample: with a prefix containing a path separator, the built
path is not in the original directory and its filename is not
`<prefix>_<original>`: `build_prefixed_name "d/photo.jpg" "a/b"` is
`"d/a/b_photo.jpg"`, whose directory is `"d/a"` and filename `"b_photo.jpg"`. -/
theorem rename2date_C5_counterexample :
    ¬ ((splitPath (build_prefixed_name "d/photo.jpg" "a/b")).1 =
        (splitPath "d/photo.jpg").1 ∧
       (splitPath (build_prefixed_name "d/photo.jpg" "a/b")).2 =
        "a/b" ++ "_" ++ (splitPath "d/photo.jpg").2) := by
  decide

/-- C5 (amended): for every path and every prefix that contains no path
separator, `build_prefixed_name` produces a path in the same directory as
the original whose filename is exactly the prefix, an underscore, and the
original filename (extension included) verbatim. -/
theorem rename2date_C5_build_name (path pfx : String) (hpfx : '/' ∉ pfx.data) :
    splitPath (build_prefixed_name path pfx) =
      ((splitPath path).1, pfx ++ "_" ++ (splitPath path).2) := by
  unfold build_prefixed_name
  apply splitPath_joinPath (headInv_splitPath path)
  · rw [build_data]
    intro hmem
    rcases List.mem_append.mp hmem with h | h
    · exact hpfx h
    · rcases List.mem_cons.mp h with h' | h'
      · exact absurd h' (by decide)
      · exact lastCompL_no_slash _ h'
  · rw [build_data]
    intro h0
    have : ('_' : Char) ∈ pfx.data ++ '_' :: lastCompL path.data :=
      List.mem_append.mpr (Or.inr (List.mem_cons_self _ _))
    rw [h0] at this
    exact List.not_mem_nil _ this

theorem rename2date_C5_witness :
    ('/' ∉ ("2024-03-05" : String).data) ∧
    splitPath (build_prefixed_name "d/photo.jpg" "2024-03-05") =
      ((splitPath "d/photo.jpg").1, "2024-03-05" ++ "_" ++ (splitPath "d/photo.jpg").2) :=
  ⟨by decide, rename2date_C5_build_name "d/photo.jpg" "2024-03-05" (by decide)⟩

/-- C2: an enumerated path is selected as a rename candidate iff it is a
regular file and its extension, lowercased, equals the configured
(normalised: lowercase, dot-prefixed) filter exactly; with filter `.jpg`,
files `a.jpg` and `b.JPG` are candidates while `c.jpeg` and `d.png` are
excluded. -/
theorem rename2date_C2_filter (fs : FS) (e p : String) :
    (p ∈ collect_targets fs (normalize_ext e) ↔
      p ∈ enumFiles fs ∧ isfileB fs p = true ∧
        strLower (splitext p).2 = normalize_ext e) ∧
    collect_targets
      [⟨"a.jpg", true, none⟩, ⟨"b.JPG", true, none⟩,
       ⟨"c.jpeg", true, none⟩, ⟨"d.png", true, none⟩]
      (normalize_ext "jpg") = ["a.jpg", "b.JPG"] := by
  constructor
  · unfold collect_targets
    rw [List.mem_filter]
    constructor
    · rintro ⟨h1, h2⟩
      rw [Bool.and_eq_true] at h2
      exact ⟨h1, h2.1, by simpa using h2.2⟩
    · rintro ⟨h1, h2, h3⟩
      refine ⟨h1, ?_⟩
      rw [Bool.and_eq_true]
      exact ⟨h2, by simpa using h3⟩
  · decide

/-- C10: for every candidate path (well-formed: its basename is not empty,
`.` or `..`), the resolved target's basename is strictly longer than the
original's, the target is never the original path, and the absolute-path
equality test guarding the no-op skip branch in `_on_rename` is false — the
branch is unreachable. -/
theorem rename2date_C10_no_noop (exist : List String) (cwd path pfx : String)
    (h1 : lastCompL path.data ≠ []) (h2 : lastCompL path.data ≠ ['.'])
    (h3 : lastCompL path.data ≠ ['.', '.']) :
    ((splitPath path).2).length <
      ((splitPath (ensure_unique_path exist (build_prefixed_name path pfx))).2).length ∧
    ensure_unique_path exist (build_prefixed_name path pfx) ≠ path ∧
    abspath cwd path ≠
      abspath cwd (ensure_unique_path exist (build_prefixed_name path pfx)) := by
  obtain ⟨hu, hlen⟩ := ensure_build_shape exist path pfx
  obtain ⟨hr1, hr2, hr3⟩ := underscore_not_bad hu
  have hlcne : lastCompL path.data ≠
      lastCompL (ensure_unique_path exist (build_prefixed_name path pfx)).data := by
    intro heq
    rw [heq] at hlen
    exact Nat.lt_irrefl _ hlen
  refine ⟨hlen, ?_, ?_⟩
  · intro heq
    rw [heq] at hlen
    exact Nat.lt_irrefl _ hlen
  · exact abspath_ne_of_lastComp h1 h2 h3 hr1 hr2 hr3 hlcne

theorem rename2date_C10_witness :
    ((splitPath "d/photo.jpg").2).length <
      ((splitPath (ensure_unique_path [] (build_prefixed_name "d/photo.jpg" "2024"))).2).length ∧
    ensure_unique_path [] (build_prefixed_name "d/photo.jpg" "2024") ≠ "d/photo.jpg" ∧
    abspath "/base" "d/photo.jpg" ≠
      abspath "/base" (ensure_unique_path [] (build_prefixed_name "d/photo.jpg" "2024")) :=
  rename2date_C10_no_noop [] "/base" "d/photo.jpg" "2024"
    (by decide) (by decide) (by decide)

/-! ### Counting lemmas for the execute and preview loops -/

theorem renameStep_counts (renameErr : String → String → Option String)
    (pattern : String) (skipFlag : Bool) (now : DT) (cwd : String)
    (st : FS × Summary × List String) (p : String) :
    (renameStep renameErr pattern skipFlag now cwd st p).2.1.renamed +
      (renameStep renameErr pattern skipFlag now cwd st p).2.1.skipped +
      (renameStep renameErr pattern skipFlag now cwd st p).2.1.errors =
    st.2.1.renamed + st.2.1.skipped + st.2.1.errors + 1 := by
  unfold renameStep
  by_cases h1 : (skipFlag && should_skip_already_prefixed (splitPath p).2
      ( get_modification_prefix st.1 p pattern now)) = true
  · rw [if_pos h1]
    simp only
    omega
  · rw [if_neg h1]
    by_cases h2 : abspath cwd p = abspath cwd (ensure_unique_path (allPaths st.1)
        (build_prefixed_name p ( get_modification_prefix st.1 p pattern now)))
    · rw [if_pos h2]
      simp only
      omega
    · rw [if_neg h2]
      rcases renameErr p (ensure_unique_path (allPaths st.1)
          (build_prefixed_name p ( get_modification_prefix st.1 p pattern now))) with
        _ | msg
      · simp only
        omega
      · simp only
        omega

theorem foldl_renameStep_counts (renameErr : String → String → Option String)
    (pattern : String) (skipFlag : Bool) (now : DT) (cwd : String) :
    ∀ (todo : List String) (st : FS × Summary × List String),
    (todo.foldl (renameStep renameErr pattern skipFlag now cwd) st).2.1.renamed +
      (todo.foldl (renameStep renameErr pattern skipFlag now cwd) st).2.1.skipped +
      (todo.foldl (renameStep renameErr pattern skipFlag now cwd) st).2.1.errors =
    st.2.1.renamed + st.2.1.skipped + st.2.1.errors + todo.length := by
  intro todo
  induction todo with
  | nil => intro st; simp
  | cons p rest ih =>
      intro st
      rw [List.foldl_cons]
      rw [ih (renameStep renameErr pattern skipFlag now cwd st p)]
      rw [renameStep_counts]
      simp only [List.length_cons]
      omega

theorem renameStep_no_error (pattern : String) (skipFlag : Bool) (now : DT)
    (cwd : String) (st : FS × Summary × List String) (p : String) :
    (renameStep (fun _ _ => none) pattern skipFlag now cwd st p).2.1.errors =
      st.2.1.errors := by
  unfold renameStep
  by_cases h1 : (skipFlag && should_skip_already_prefixed (splitPath p).2
      ( get_modification_prefix st.1 p pattern now)) = true
  · rw [if_pos h1]
  · rw [if_neg h1]
    by_cases h2 : abspath cwd p = abspath cwd (ensure_unique_path (allPaths st.1)
        (build_prefixed_name p ( get_modification_prefix st.1 p pattern now)))
    · rw [if_pos h2]
    · rw [if_neg h2]

theorem foldl_renameStep_no_error (pattern : String) (skipFlag : Bool)
    (now : DT) (cwd : String) :
    ∀ (todo : List String) (st : FS × Summary × List String),
    (todo.foldl (renameStep (fun _ _ => none) pattern skipFlag now cwd) st).2.1.errors =
      st.2.1.errors := by
  intro todo
  induction todo with
  | nil => intro st; rfl
  | cons p rest ih =>
      intro st
      rw [List.foldl_cons, ih, renameStep_no_error]

/-- Which candidates the preview loop counts: those the active skip policy
does not skip. -/
def qualifies (pattern : String) (skipFlag : Bool) (now : DT) (fs : FS)
    (p : String) : Bool :=
  ! (skipFlag && should_skip_already_prefixed (splitPath p).2
      ( get_modification_prefix fs p pattern now))

theorem previewLoop_count (pattern : String) (skipFlag : Bool) (now : DT)
    (fs : FS) :
    ∀ (todo : List String) (count : Nat) (log : List String), count < 10 →
    ( previewLoop pattern skipFlag now fs todo count log).1 =
      min 10 (count + (todo.filter (qualifies pattern skipFlag now fs)).length) ∧
    ( previewLoop pattern skipFlag now fs todo count log).2.length =
      log.length + (( previewLoop pattern skipFlag now fs todo count log).1 - count) := by
  intro todo
  induction todo with
  | nil =>
      intro count log hcount
      rw [previewLoop]
      simp only [List.filter_nil, List.length_nil, Nat.add_zero]
      constructor
      · omega
      · omega
  | cons p rest ih =>
      intro count log hcount
      rw [previewLoop]
      by_cases hskip : (skipFlag && should_skip_already_prefixed (splitPath p).2
          ( get_modification_prefix fs p pattern now)) = true
      · rw [if_pos hskip]
        have hq : qualifies pattern skipFlag now fs p = false := by
          unfold qualifies
          rw [hskip]
          rfl
        rw [List.filter_cons_of_neg (by simp [hq])]
        exact ih count log hcount
      · rw [if_neg hskip]
        have hq : qualifies pattern skipFlag now fs p = true := by
          unfold qualifies
          rw [Bool.not_eq_true] at hskip
          rw [hskip]
          rfl
        rw [List.filter_cons_of_pos (by rw [hq])]
        simp only [List.length_cons]
        by_cases hc : count + 1 ≥ 10
        · rw [if_pos hc]
          simp only [List.length_append, List.length_singleton]
          constructor
          · omega
          · omega
        · rw [if_neg hc]
          obtain ⟨ih1, ih2⟩ := ih (count + 1)
            (log ++ [(splitPath p).2 ++ " -> " ++
              (splitPath (ensure_unique_path (allPaths fs)
                (build_prefixed_name p ( get_modification_prefix fs p pattern now)))).2 ++
              (if ensure_unique_path (allPaths fs)
                  (build_prefixed_name p ( get_modification_prefix fs p pattern now)) ≠
                  build_prefixed_name p ( get_modification_prefix fs p pattern now)
                then " (collision -> will use unique name)" else "")])
            (by omega)
          constructor
          · rw [ih1]
            omega
          · rw [ih2, ih1]
            simp only [List.length_append, List.length_singleton]
            omega

/-- C6: a rename failure (oracle says `os.rename` raised) is recorded as an
error outcome carrying the message, is counted, and never aborts the run:
every collected candidate contributes exactly one outcome
(renamed + skipped + errors = number of candidates, for any oracle), the
log always ends with the `"Done. Renamed: …"` summary, the failing step
leaves the filesystem untouched and appends the `ERROR:` line, and a
concrete failing run completes with the summary. -/
theorem rename2date_C6_error_handling
    (renameErr : String → String → Option String) (ext pattern : String)
    (skipFlag : Bool) (now : DT) (cwd : String) (fs : FS) :
    ((on_rename renameErr ext pattern skipFlag now cwd fs).2.1.renamed +
      (on_rename renameErr ext pattern skipFlag now cwd fs).2.1.skipped +
      (on_rename renameErr ext pattern skipFlag now cwd fs).2.1.errors =
      (collect_targets fs ext).length) ∧
    ((on_rename renameErr ext pattern skipFlag now cwd fs).2.2.getLast? =
      some (summaryLine (on_rename renameErr ext pattern skipFlag now cwd fs).2.1)) ∧
    (∀ (st : FS × Summary × List String) (p msg : String),
      ¬ (skipFlag && should_skip_already_prefixed (splitPath p).2
          ( get_modification_prefix st.1 p pattern now)) = true →
      abspath cwd p ≠ abspath cwd (ensure_unique_path (allPaths st.1)
        (build_prefixed_name p ( get_modification_prefix st.1 p pattern now))) →
      renameErr p (ensure_unique_path (allPaths st.1)
        (build_prefixed_name p ( get_modification_prefix st.1 p pattern now))) = some msg →
      renameStep renameErr pattern skipFlag now cwd st p =
        (st.1, ⟨st.2.1.renamed, st.2.1.skipped, st.2.1.errors + 1⟩,
          st.2.2 ++ ["ERROR: " ++ p ++ ": " ++ msg])) ∧
    (on_rename (fun _ _ => some "Permission denied") ".jpg" "%Y" true
        ⟨2024, 1, 1, 0, 0, 0⟩ "/base" [⟨"d/a.jpg", true, some ⟨2024, 3, 5, 14, 30, 0⟩⟩] =
      ([⟨"d/a.jpg", true, some ⟨2024, 3, 5, 14, 30, 0⟩⟩], ⟨0, 0, 1⟩,
        ["ERROR: d/a.jpg: Permission denied",
         "Done. Renamed: 0, Skipped: 0, Errors: 1"])) := by
  refine ⟨?_, ?_, ?_, by decide⟩
  · unfold on_rename
    simp only
    rw [foldl_renameStep_counts]
    simp
  · unfold on_rename
    simp only
    rw [List.getLast?_concat]
  · intro st p msg h1 h2 h3
    unfold renameStep
    rw [if_neg h1, if_neg h2, h3]

/-- C8: `get_modification_prefix` formats the file's mtime with the pattern;
when reading the mtime fails (no entry, or unreadable timestamp) it falls
back to the current wall-clock time and still returns a formatted string;
with no OS rename failures the whole run reports zero errors — an
unreadable mtime is never surfaced as an error outcome. -/
theorem rename2date_C8_mtime_fallback (fs : FS) (p pattern : String)
    (now m : DT) :
    (getMtime fs p = some m →
      get_modification_prefix fs p pattern now = strftime pattern m) ∧
    (getMtime fs p = none →
      get_modification_prefix fs p pattern now = strftime pattern now) ∧
    (∀ (ext : String) (skipFlag : Bool) (cwd : String),
      (on_rename (fun _ _ => none) ext pattern skipFlag now cwd fs).2.1.errors = 0) := by
  refine ⟨?_, ?_, ?_⟩
  · intro h
    unfold get_modification_prefix
    rw [h]
  · intro h
    unfold get_modification_prefix
    rw [h]
  · intro ext skipFlag cwd
    unfold on_rename
    simp only
    rw [foldl_renameStep_no_error]

/-- C7: preview never mutates the filesystem (it is returned unchanged), it
shows `min 10 q` entries where `q` is the number of qualifying candidates
(those the active skip policy does not skip) — exactly 10 entries when 15
qualify — and with zero qualifying candidates the log is exactly the
no-matching-files message. -/
theorem rename2date_C7_preview_cap (ext pattern : String) (skipFlag : Bool)
    (now : DT) (fs : FS) :
    ((on_preview ext pattern skipFlag now fs).1 = fs) ∧
    (( previewLoop pattern skipFlag now fs (collect_targets fs ext) 0 []).1 =
      min 10 ((collect_targets fs ext).filter
        (qualifies pattern skipFlag now fs)).length) ∧
    (( previewLoop pattern skipFlag now fs (collect_targets fs ext) 0 []).2.length =
      ( previewLoop pattern skipFlag now fs (collect_targets fs ext) 0 []).1) ∧
    (((collect_targets fs ext).filter (qualifies pattern skipFlag now fs)).length = 15 →
      ( previewLoop pattern skipFlag now fs (collect_targets fs ext) 0 []).1 = 10) ∧
    (((collect_targets fs ext).filter (qualifies pattern skipFlag now fs)).length = 0 →
      (on_preview ext pattern skipFlag now fs).2 =
        ["No matching files found for preview."]) := by
  obtain ⟨h1, h2⟩ := previewLoop_count pattern skipFlag now fs
    (collect_targets fs ext) 0 [] (by omega)
  refine ⟨?_, ?_, ?_, ?_, ?_⟩
  · unfold on_preview
    by_cases h : ( previewLoop pattern skipFlag now fs (collect_targets fs ext) 0 []).1 = 0
    · rw [if_pos h]
    · rw [if_neg h]
  · simpa using h1
  · rw [h2]
    simp
  · intro hq
    rw [h1, hq]
    decide
  · intro hq
    have hc0 : ( previewLoop pattern skipFlag now fs (collect_targets fs ext) 0 []).1 = 0 := by
      rw [h1, hq]
      decide
    have hl0 : ( previewLoop pattern skipFlag now fs (collect_targets fs ext) 0 []).2 = [] := by
      have := h2
      rw [hc0] at this
      simp only [List.length_nil, Nat.zero_add, Nat.sub_zero] at this
      exact List.length_eq_zero.mp (by simpa using this)
    unfold on_preview
    rw [if_pos hc0, hl0]
    rfl

/-! ### Idempotence of execute (claim C3): infrastructure -/

/-- The prefix a file's own (readable) mtime induces. -/
def pfxOfE (pattern : String) (e : FSFile) : String :=
  strftime pattern (e.mtime.getD ⟨0, 0, 0, 0, 0, 0⟩)

/-- The skip test, expressed over the entry itself. -/
def entSkip (pattern : String) (e : FSFile) : Prop :=
  should_skip_already_prefixed (splitPath e.path).2 (pfxOfE pattern e) = true

/-- The new entry is a correct rename of the old one: its basename starts
with the old entry's prefix and underscore, and keeps the extension. -/
def renamedGood (pattern : String) (e e' : FSFile) : Prop :=
  startsWithL (lastCompL e'.path.data) ((pfxOfE pattern e).data ++ ['_']) = true ∧
  (splitextL e'.path.data).2 = (splitextL e.path.data).2 ∧
  '_' ∈ lastCompL e'.path.data

/-- Entry-wise effect of one execute run on the entries, relative to the
candidate set `C`: fields preserved, and the path either untouched (skipped
candidates were already prefixed) or renamed correctly. -/
def EntRel (pattern : String) (C : List String) (e e' : FSFile) : Prop :=
  e'.isFile = e.isFile ∧ e'.mtime = e.mtime ∧
  ((e'.path = e.path ∧ (e.path ∈ C → entSkip pattern e)) ∨
   (e.path ∈ C ∧ renamedGood pattern e e'))

/-- A path whose final component is a plausible filename (what enumeration
of real files yields). -/
def wfComp (e : FSFile) : Prop :=
  lastCompL e.path.data ≠ [] ∧ lastCompL e.path.data ≠ ['.'] ∧
    lastCompL e.path.data ≠ ['.', '.']

theorem nodup_path_eq : ∀ {fs : FS}, (allPaths fs).Nodup →
    ∀ {e1 e2 : FSFile}, e1 ∈ fs → e2 ∈ fs → e1.path = e2.path → e1 = e2 := by
  intro fs
  induction fs with
  | nil => intro _ e1 e2 h1; simp at h1
  | cons h t ih =>
      intro hnd e1 e2 h1 h2 hp
      have hnd' : (allPaths t).Nodup := (List.nodup_cons.mp hnd).2
      have hnotin : h.path ∉ allPaths t := (List.nodup_cons.mp hnd).1
      rcases List.mem_cons.mp h1 with rfl | h1' <;>
        rcases List.mem_cons.mp h2 with rfl | h2'
      · rfl
      · exact absurd (hp ▸ List.mem_map_of_mem FSFile.path h2') hnotin
      · exact absurd (hp ▸ List.mem_map_of_mem FSFile.path h1') hnotin
      · exact ih hnd' h1' h2' hp

theorem getMtime_eq {fs : FS} (hnd : (allPaths fs).Nodup) {e : FSFile}
    (he : e ∈ fs) {p : String} (hp : e.path = p) : getMtime fs p = e.mtime := by
  induction fs with
  | nil => simp at he
  | cons h t ih =>
      unfold getMtime
      rw [List.find?_cons]
      by_cases hh : h.path = p
      · have hd : (decide (h.path = p)) = true := by simp [hh]
        rw [hd]
        have he2 : h = e := nodup_path_eq hnd (List.mem_cons_self h t) he (by rw [hh, hp])
        rw [he2]
      · have hd : (decide (h.path = p)) = false := by simp [hh]
        rw [hd]
        rcases List.mem_cons.mp he with rfl | he'
        · exact absurd hp hh
        · exact ih (List.nodup_cons.mp hnd).2 he'

theorem allPaths_applyRename (fs : FS) (p t : String) :
    allPaths (applyRename fs p t) =
      (allPaths fs).map (fun q => if q = p then t else q) := by
  unfold allPaths applyRename
  rw [List.map_map, List.map_map]
  apply List.map_congr_left
  intro e _
  by_cases h : e.path = p
  · simp [h]
  · simp [h]

theorem applyRename_nodup {fs : FS} (hnd : (allPaths fs).Nodup) {p t : String}
    (ht : t ∉ allPaths fs) : (allPaths (applyRename fs p t)).Nodup := by
  rw [allPaths_applyRename]
  apply List.Nodup.map_on _ hnd
  intro x hx y hy hxy
  by_cases hxp : x = p <;> by_cases hyp : y = p
  · rw [hxp, hyp]
  · rw [if_pos hxp, if_neg hyp] at hxy
    exact absurd (hxy ▸ hy) ht
  · rw [if_neg hxp, if_pos hyp] at hxy
    exact absurd (hxy.symm ▸ hx) ht
  · rwa [if_neg hxp, if_neg hyp] at hxy

theorem mem_applyRename_of_ne {fs : FS} {e : FSFile} (he : e ∈ fs)
    {p t : String} (hne : e.path ≠ p) : e ∈ applyRename fs p t := by
  unfold applyRename
  have : (if e.path = p then { e with path := t } else e) = e := if_neg hne
  rw [← this]
  exact List.mem_map_of_mem _ he

theorem forall₂_imp_left {R S : FSFile → FSFile → Prop} :
    ∀ {l1 l2 : List FSFile}, List.Forall₂ R l1 l2 →
      (∀ a ∈ l1, ∀ b, R a b → S a b) → List.Forall₂ S l1 l2 := by
  intro l1 l2 h
  induction h with
  | nil => intro _; exact List.Forall₂.nil
  | cons hab htail ih =>
      intro himp
      exact List.Forall₂.cons
        (himp _ (List.mem_cons_self _ _) _ hab)
        (ih (fun a ha b hr => himp a (List.mem_cons_of_mem _ ha) b hr))

theorem forall₂_mem_right {R : FSFile → FSFile → Prop} :
    ∀ {l1 l2 : List FSFile}, List.Forall₂ R l1 l2 →
      ∀ {b}, b ∈ l2 → ∃ a ∈ l1, R a b := by
  intro l1 l2 h
  induction h with
  | nil => intro b hb; simp at hb
  | cons hab htail ih =>
      intro b hb
      rcases List.mem_cons.mp hb with rfl | hb'
      · exact ⟨_, List.mem_cons_self _ _, hab⟩
      · obtain ⟨a, ha, har⟩ := ih hb'
        exact ⟨a, List.mem_cons_of_mem _ ha, har⟩

theorem abspath_branch_false (exist : List String) (cwd path pfx : String)
    (h1 : lastCompL path.data ≠ []) (h2 : lastCompL path.data ≠ ['.'])
    (h3 : lastCompL path.data ≠ ['.', '.']) :
    abspath cwd path ≠
      abspath cwd (ensure_unique_path exist (build_prefixed_name path pfx)) := by
  obtain ⟨hu, hlen⟩ := ensure_build_shape exist path pfx
  obtain ⟨hr1, hr2, hr3⟩ := underscore_not_bad hu
  apply abspath_ne_of_lastComp h1 h2 h3 hr1 hr2 hr3
  intro heq
  rw [heq] at hlen
  exact Nat.lt_irrefl _ hlen

theorem renameStep_skip {pattern : String} {now : DT} {cwd : String}
    {fs : FS} {sm : Summary} {log : List String} {p : String}
    (hskip : should_skip_already_prefixed (splitPath p).2
      ( get_modification_prefix fs p pattern now) = true) :
    renameStep (fun _ _ => none) pattern true now cwd (fs, sm, log) p =
      (fs, { sm with skipped := sm.skipped + 1 }, log) := by
  unfold renameStep
  rw [if_pos (by simp [hskip])]

theorem renameStep_rename {pattern : String} {now : DT} {cwd : String}
    {fs : FS} {sm : Summary} {log : List String} {p : String}
    (hnskip : ¬ should_skip_already_prefixed (splitPath p).2
      ( get_modification_prefix fs p pattern now) = true)
    (h1 : lastCompL p.data ≠ []) (h2 : lastCompL p.data ≠ ['.'])
    (h3 : lastCompL p.data ≠ ['.', '.']) :
    renameStep (fun _ _ => none) pattern true now cwd (fs, sm, log) p =
      (applyRename fs p (ensure_unique_path (allPaths fs)
          (build_prefixed_name p ( get_modification_prefix fs p pattern now))),
        { sm with renamed := sm.renamed + 1 },
        log ++ ["RENAMED: " ++ (splitPath p).2 ++ " -> " ++
          (splitPath (ensure_unique_path (allPaths fs)
            (build_prefixed_name p ( get_modification_prefix fs p pattern now)))).2]) := by
  unfold renameStep
  rw [if_neg (by simp [hnskip])]
  rw [if_neg (abspath_branch_false _ cwd p _ h1 h2 h3)]

set_option maxHeartbeats 2000000 in
theorem run1_fold (pattern : String) (now : DT) (cwd : String) (g : String → Bool)
    (hpfx : ∀ dt, '/' ∉ (strftime pattern dt).data) :
    ∀ (todo : List String) (fs : FS) (sm : Summary) (log : List String),
    (allPaths fs).Nodup →
    todo.Nodup →
    (∀ p ∈ todo, ∃ e, e ∈ fs ∧ e.path = p ∧ e.isFile = true ∧
      (∃ m, e.mtime = some m) ∧ (splitextL p.data).2 ≠ []) →
    (∀ e ∈ fs, wfComp e) →
    (∀ p ∈ todo, ∀ e, e ∈ fs → e.path = p →
      g p = should_skip_already_prefixed (splitPath p).2 (pfxOfE pattern e)) →
    List.Forall₂ (EntRel pattern todo) fs
      (todo.foldl (renameStep (fun _ _ => none) pattern true now cwd) (fs, sm, log)).1 ∧
    (allPaths (todo.foldl (renameStep (fun _ _ => none) pattern true now cwd)
      (fs, sm, log)).1).Nodup ∧
    (∀ e ∈ (todo.foldl (renameStep (fun _ _ => none) pattern true now cwd)
      (fs, sm, log)).1, wfComp e) ∧
    (todo.foldl (renameStep (fun _ _ => none) pattern true now cwd)
      (fs, sm, log)).2.1.renamed =
      sm.renamed + (todo.filter (fun p => ! g p)).length ∧
    (todo.foldl (renameStep (fun _ _ => none) pattern true now cwd)
      (fs, sm, log)).2.1.skipped =
      sm.skipped + (todo.filter g).length ∧
    (todo.foldl (renameStep (fun _ _ => none) pattern true now cwd)
      (fs, sm, log)).2.1.errors = sm.errors := by
  intro todo
  induction todo with
  | nil =>
      intro fs sm log h1 _ _ h4 _
      refine ⟨?_, h1, h4, by simp, by simp, rfl⟩
      rw [List.foldl_nil]
      rw [List.forall₂_same]
      intro e _
      exact ⟨rfl, rfl, Or.inl ⟨rfl, fun hmem => absurd hmem (List.not_mem_nil _)⟩⟩
  | cons p rest ih =>
      intro fs sm log h1 h2 h3 h4 h5
      obtain ⟨ep, hefs, hep, hefile, ⟨m, hm⟩, hpext⟩ := h3 p (List.mem_cons_self p rest)
      have hprest : p ∉ rest := (List.nodup_cons.mp h2).1
      have hrestnd : rest.Nodup := (List.nodup_cons.mp h2).2
      have hgm : get_modification_prefix fs p pattern now = strftime pattern m := by
        unfold get_modification_prefix
        rw [getMtime_eq h1 hefs hep, hm]
      have hpfxe : pfxOfE pattern ep = strftime pattern m := by
        unfold pfxOfE
        rw [hm]
        rfl
      have hgp : g p = should_skip_already_prefixed (splitPath p).2
          (strftime pattern m) := by
        rw [h5 p (List.mem_cons_self p rest) ep hefs hep, hpfxe]
      have hwfp := h4 ep hefs
      unfold wfComp at hwfp
      rw [hep] at hwfp
      rw [List.foldl_cons]
      by_cases hskip : should_skip_already_prefixed (splitPath p).2
          ( get_modification_prefix fs p pattern now) = true
      · -- the candidate is already prefixed: skipped, filesystem unchanged
        rw [renameStep_skip hskip]
        obtain ⟨A, B, W, Cr, Cs, Ce⟩ := ih fs { sm with skipped := sm.skipped + 1 } log
          h1 hrestnd
          (fun q hq => h3 q (List.mem_cons_of_mem p hq)) h4
          (fun q hq => h5 q (List.mem_cons_of_mem p hq))
        have hgptrue : g p = true := by
          rw [hgp, ← hgm]
          exact hskip
        refine ⟨?_, B, W, ?_, ?_, ?_⟩
        · refine forall₂_imp_left A ?_
          intro e he e' hrel
          obtain ⟨hf, hmt, hdis⟩ := hrel
          refine ⟨hf, hmt, ?_⟩
          rcases hdis with ⟨hpath, hskip'⟩ | ⟨hmem, hgood⟩
          · left
            refine ⟨hpath, fun hmem => ?_⟩
            rcases List.mem_cons.mp hmem with heqp | hmem'
            · have : e = ep := nodup_path_eq h1 he hefs (by rw [heqp, hep])
              rw [this]
              unfold entSkip
              rw [hpfxe, hep, ← hgm]
              exact hskip
            · exact hskip' hmem'
          · exact Or.inr ⟨List.mem_cons_of_mem p hmem, hgood⟩
        · rw [Cr, List.filter_cons_of_neg (by simp [hgptrue])]
        · rw [Cs, List.filter_cons_of_pos (by simp [hgptrue])]
          simp only [List.length_cons]
          omega
        · rw [Ce]
      · -- not yet prefixed: renamed to a fresh unique target
        rw [renameStep_rename hskip hwfp.1 hwfp.2.1 hwfp.2.2]
        have hgpfalse : g p = false := by
          rw [hgp, ← hgm]
          simpa using hskip
        have hpslash : '/' ∉ ( get_modification_prefix fs p pattern now).data := by
          rw [hgm]
          exact hpfx m
        obtain ⟨hstarts, hextkeep⟩ :=
          ensure_build_renamed_shape (allPaths fs) p
            ( get_modification_prefix fs p pattern now) hpslash hpext
        obtain ⟨hund, _⟩ := ensure_build_shape (allPaths fs) p
          ( get_modification_prefix fs p pattern now)
        have htfree : ensure_unique_path (allPaths fs)
            (build_prefixed_name p ( get_modification_prefix fs p pattern now)) ∉
            allPaths fs :=
          ensure_unique_not_exist _ _
        have hnd' : (allPaths (applyRename fs p (ensure_unique_path (allPaths fs)
            (build_prefixed_name p ( get_modification_prefix fs p pattern now))))).Nodup :=
          applyRename_nodup h1 htfree
        have hmemfs' : ∀ e, e ∈ fs → e.path ≠ p →
            e ∈ applyRename fs p (ensure_unique_path (allPaths fs)
              (build_prefixed_name p ( get_modification_prefix fs p pattern now))) :=
          fun e he hne => mem_applyRename_of_ne he hne
        obtain ⟨A, B, W, Cr, Cs, Ce⟩ := ih
          (applyRename fs p (ensure_unique_path (allPaths fs)
            (build_prefixed_name p ( get_modification_prefix fs p pattern now))))
          { sm with renamed := sm.renamed + 1 }
          (log ++ ["RENAMED: " ++ (splitPath p).2 ++ " -> " ++
            (splitPath (ensure_unique_path (allPaths fs)
              (build_prefixed_name p ( get_modification_prefix fs p pattern now)))).2])
          hnd' hrestnd
          (fun q hq => by
            obtain ⟨e, he, heq, hf, hmm, hx⟩ := h3 q (List.mem_cons_of_mem p hq)
            have hqp : q ≠ p := fun h0 => hprest (h0 ▸ hq)
            exact ⟨e, hmemfs' e he (by rw [heq]; exact hqp), heq, hf, hmm, hx⟩)
          (fun e' he' => by
            obtain ⟨e, he, hmap⟩ := List.mem_map.mp he'
            by_cases hpe : e.path = p
            · rw [if_pos hpe] at hmap
              rw [← hmap]
              unfold wfComp
              simp only
              exact underscore_not_bad hund
            · rw [if_neg hpe] at hmap
              rw [← hmap]
              exact h4 e he)
          (fun q hq e' he' heq' => by
            obtain ⟨e, he, hmap⟩ := List.mem_map.mp he'
            by_cases hpe : e.path = p
            · exfalso
              rw [if_pos hpe] at hmap
              have hq_eq : q = ensure_unique_path (allPaths fs)
                  (build_prefixed_name p ( get_modification_prefix fs p pattern now)) := by
                rw [← heq', ← hmap]
              apply htfree
              rw [← hq_eq]
              obtain ⟨e2, he2, he2q, _, _, _⟩ := h3 q (List.mem_cons_of_mem p hq)
              exact he2q ▸ List.mem_map_of_mem FSFile.path he2
            · rw [if_neg hpe] at hmap
              rw [← hmap] at heq' ⊢
              exact h5 q (List.mem_cons_of_mem p hq) e he heq')
        refine ⟨?_, B, W, ?_, ?_, ?_⟩
        · unfold applyRename at A
          rw [List.forall₂_map_left_iff] at A
          refine forall₂_imp_left A ?_
          intro e he e' hrel
          by_cases hpe : e.path = p
          · have heep : e = ep := nodup_path_eq h1 he hefs (by rw [hpe, hep])
            rw [if_pos hpe] at hrel
            obtain ⟨hf, hmt, hdis⟩ := hrel
            have hpath' : e'.path = ensure_unique_path (allPaths fs)
                (build_prefixed_name p ( get_modification_prefix fs p pattern now)) := by
              rcases hdis with ⟨hpath, _⟩ | ⟨hmem, _⟩
              · exact hpath
              · exfalso
                apply htfree
                obtain ⟨e2, he2, he2q, _, _, _⟩ := h3 _ (List.mem_cons_of_mem p hmem)
                have he2q' : e2.path = ensure_unique_path (allPaths fs)
                    (build_prefixed_name p ( get_modification_prefix fs p pattern now)) := he2q
                rw [← he2q']
                exact List.mem_map_of_mem FSFile.path he2
            refine ⟨hf, hmt, Or.inr ⟨?_, ?_, ?_, ?_⟩⟩
            · rw [hpe]; exact List.mem_cons_self p rest
            · rw [hpath']
              have : pfxOfE pattern e = get_modification_prefix fs p pattern now := by
                rw [heep, hpfxe, hgm]
              rw [this]
              exact hstarts
            · rw [hpath', hextkeep, hpe]
            · rw [hpath']
              exact hund
          · rw [if_neg hpe] at hrel
            obtain ⟨hf, hmt, hdis⟩ := hrel
            refine ⟨hf, hmt, ?_⟩
            rcases hdis with ⟨hpath, hskip'⟩ | ⟨hmem, hgood⟩
            · left
              refine ⟨hpath, fun hmem => ?_⟩
              rcases List.mem_cons.mp hmem with heqp | hmem'
              · exact absurd heqp hpe
              · exact hskip' hmem'
            · exact Or.inr ⟨List.mem_cons_of_mem p hmem, hgood⟩
        · rw [Cr, List.filter_cons_of_pos (by simp [hgpfalse])]
          simp only [List.length_cons]
          omega
        · rw [Cs, List.filter_cons_of_neg (by simp [hgpfalse])]
        · rw [Ce]

theorem run2_fold (renameErr : String → String → Option String)
    (pattern : String) (now : DT) (cwd : String) :
    ∀ (todo : List String) (fs : FS) (sm : Summary) (log : List String),
    (∀ p ∈ todo, should_skip_already_prefixed (splitPath p).2
      ( get_modification_prefix fs p pattern now) = true) →
    todo.foldl (renameStep renameErr pattern true now cwd) (fs, sm, log) =
      (fs, { sm with skipped := sm.skipped + todo.length }, log) := by
  intro todo
  induction todo with
  | nil =>
      intro fs sm log _
      rw [List.foldl_nil]
      simp
  | cons p rest ih =>
      intro fs sm log hall
      rw [List.foldl_cons]
      have hstep : renameStep renameErr pattern true now cwd (fs, sm, log) p =
          (fs, { sm with skipped := sm.skipped + 1 }, log) := by
        unfold renameStep
        rw [if_pos (by simp [hall p (List.mem_cons_self p rest)])]
      rw [hstep, ih fs _ log (fun q hq => hall q (List.mem_cons_of_mem p hq))]
      simp only [List.length_cons, Prod.mk.injEq, Summary.mk.injEq, true_and,
        and_true]
      omega

theorem run2_all_skip (pattern ext : String) (now2 : DT) {fs fs1 : FS}
    (hrel : List.Forall₂ (EntRel pattern (collect_targets fs ext)) fs fs1)
    (hnd1 : (allPaths fs1).Nodup)
    (hmt : ∀ e ∈ fs, e.isFile = true → ∃ m, e.mtime = some m) :
    ∀ q ∈ collect_targets fs1 ext,
      should_skip_already_prefixed (splitPath q).2
        ( get_modification_prefix fs1 q pattern now2) = true := by
  intro q hq
  unfold collect_targets at hq
  obtain ⟨hq1, hq2⟩ := List.mem_filter.mp hq
  rw [Bool.and_eq_true] at hq2
  have hfile1 : ∃ e' ∈ fs1, e'.path = q ∧ e'.isFile = true := by
    have h0 := hq2.1
    unfold isfileB at h0
    rw [List.any_eq_true] at h0
    obtain ⟨e', he', hee⟩ := h0
    rw [Bool.and_eq_true] at hee
    exact ⟨e', he', by simpa using hee.1, hee.2⟩
  obtain ⟨e', he', he'q, he'file⟩ := hfile1
  obtain ⟨e, he, hrel_e⟩ := forall₂_mem_right hrel he'
  obtain ⟨hf, hmtime, hdis⟩ := hrel_e
  have hefile : e.isFile = true := by rw [← hf]; exact he'file
  obtain ⟨m, hm⟩ := hmt e he hefile
  have hgm1 : get_modification_prefix fs1 q pattern now2 = strftime pattern m := by
    unfold get_modification_prefix
    rw [getMtime_eq hnd1 he' he'q, hmtime, hm]
  have hpfxeq : pfxOfE pattern e = strftime pattern m := by
    unfold pfxOfE
    rw [hm]
    rfl
  rcases hdis with ⟨hpath, hskipC⟩ | ⟨hmemC, hgood⟩
  · have heq : e.path = q := by rw [← hpath, he'q]
    have hC : e.path ∈ collect_targets fs ext := by
      unfold collect_targets
      rw [List.mem_filter]
      refine ⟨?_, ?_⟩
      · unfold enumFiles
        exact List.mem_map_of_mem _ (List.mem_filter.mpr ⟨he, by simpa using hefile⟩)
      · rw [Bool.and_eq_true]
        refine ⟨?_, ?_⟩
        · unfold isfileB
          rw [List.any_eq_true]
          exact ⟨e, he, by simp [hefile]⟩
        · rw [heq]
          exact hq2.2
    have hes := hskipC hC
    unfold entSkip at hes
    rw [hpfxeq] at hes
    rw [hgm1, ← heq]
    exact hes
  · obtain ⟨hstart, _, _⟩ := hgood
    rw [hgm1]
    rw [hpfxeq] at hstart
    rw [← he'q]
    show startsWithL (lastCompL e'.path.data)
      ((strftime pattern m ++ "_") : String).data = true
    have hpd : ((strftime pattern m ++ "_") : String).data =
        (strftime pattern m).data ++ ['_'] := by
      rw [string_append_data, underscore_data]
    rw [hpd]
    exact hstart

theorem collect_targets_nodup {fs : FS} (hnd : (allPaths fs).Nodup)
    (ext : String) : (collect_targets fs ext).Nodup := by
  have h1 : (enumFiles fs).Nodup := by
    unfold enumFiles
    apply List.Nodup.sublist (List.Sublist.map FSFile.path (List.filter_sublist fs))
    exact hnd
  unfold collect_targets
  exact List.Nodup.sublist (List.filter_sublist _) h1

theorem collect_targets_entry {fs : FS} {ext p : String}
    (hp : p ∈ collect_targets fs ext) (hext : ext ≠ "") :
    ∃ e, e ∈ fs ∧ e.path = p ∧ e.isFile = true ∧
      strLower (splitext p).2 = ext ∧ (splitextL p.data).2 ≠ [] := by
  unfold collect_targets at hp
  obtain ⟨hp1, hp2⟩ := List.mem_filter.mp hp
  rw [Bool.and_eq_true] at hp2
  have hextq : strLower (splitext p).2 = ext := by
    have := hp2.2
    rwa [beq_iff_eq] at this
  unfold enumFiles at hp1
  obtain ⟨e, he, hep⟩ := List.mem_map.mp hp1
  have he2 := List.mem_filter.mp he
  refine ⟨e, he2.1, hep, by simpa using he2.2, hextq, ?_⟩
  intro h0
  apply hext
  rw [← hextq]
  show strLower (String.mk (splitextL p.data).2) = ""
  rw [h0]
  rfl

theorem on_rename_eq (renameErr : String → String → Option String)
    (ext pattern : String) (skipFlag : Bool) (now : DT) (cwd : String) (fs : FS) :
    on_rename renameErr ext pattern skipFlag now cwd fs =
      (((collect_targets fs ext).foldl (renameStep renameErr pattern skipFlag now cwd)
          (fs, ⟨0, 0, 0⟩, [])).1,
       ((collect_targets fs ext).foldl (renameStep renameErr pattern skipFlag now cwd)
          (fs, ⟨0, 0, 0⟩, [])).2.1,
       ((collect_targets fs ext).foldl (renameStep renameErr pattern skipFlag now cwd)
          (fs, ⟨0, 0, 0⟩, [])).2.2 ++
         [summaryLine (((collect_targets fs ext).foldl
            (renameStep renameErr pattern skipFlag now cwd) (fs, ⟨0, 0, 0⟩, [])).2.1)]) := rfl

set_option maxHeartbeats 2000000 in
/-- C3: with skip-already-prefixed on and unchanged mtimes and pattern, the
first execute run renames every qualifying candidate (and errors on none),
and the second run leaves the filesystem untouched, renames nothing, and
skips every collected candidate as already prefixed. -/
theorem rename2date_C3_idempotent (ext pattern : String) (now1 now2 : DT)
    (cwd : String) (fs : FS)
    (hnd : (allPaths fs).Nodup)
    (hwf : ∀ e ∈ fs, wfComp e)
    (hmt : ∀ e ∈ fs, e.isFile = true → ∃ m, e.mtime = some m)
    (hpfx : ∀ dt, '/' ∉ (strftime pattern dt).data)
    (hext : ext ≠ "") :
    (on_rename (fun _ _ => none) ext pattern true now1 cwd fs).2.1.renamed =
      ((collect_targets fs ext).filter (fun p =>
        ! should_skip_already_prefixed (splitPath p).2
          ( get_modification_prefix fs p pattern now1))).length ∧
    (on_rename (fun _ _ => none) ext pattern true now1 cwd fs).2.1.skipped =
      ((collect_targets fs ext).filter (fun p =>
        should_skip_already_prefixed (splitPath p).2
          ( get_modification_prefix fs p pattern now1))).length ∧
    (on_rename (fun _ _ => none) ext pattern true now1 cwd fs).2.1.errors = 0 ∧
    (on_rename (fun _ _ => none) ext pattern true now2 cwd
        (on_rename (fun _ _ => none) ext pattern true now1 cwd fs).1).1 =
      (on_rename (fun _ _ => none) ext pattern true now1 cwd fs).1 ∧
    (on_rename (fun _ _ => none) ext pattern true now2 cwd
        (on_rename (fun _ _ => none) ext pattern true now1 cwd fs).1).2.1.renamed = 0 ∧
    (on_rename (fun _ _ => none) ext pattern true now2 cwd
        (on_rename (fun _ _ => none) ext pattern true now1 cwd fs).1).2.1.errors = 0 ∧
    (on_rename (fun _ _ => none) ext pattern true now2 cwd
        (on_rename (fun _ _ => none) ext pattern true now1 cwd fs).1).2.1.skipped =
      (collect_targets
        (on_rename (fun _ _ => none) ext pattern true now1 cwd fs).1 ext).length := by
  have h3 : ∀ p ∈ collect_targets fs ext, ∃ e, e ∈ fs ∧ e.path = p ∧
      e.isFile = true ∧ (∃ m, e.mtime = some m) ∧ (splitextL p.data).2 ≠ [] := by
    intro p hp
    obtain ⟨e, he, hep, hef, _, hne⟩ := collect_targets_entry hp hext
    exact ⟨e, he, hep, hef, hmt e he hef, hne⟩
  have h5 : ∀ p ∈ collect_targets fs ext, ∀ e, e ∈ fs → e.path = p →
      (fun p => should_skip_already_prefixed (splitPath p).2
        ( get_modification_prefix fs p pattern now1)) p =
      should_skip_already_prefixed (splitPath p).2 (pfxOfE pattern e) := by
    intro p hp e he hep
    obtain ⟨e2, he2, he2p, _, ⟨m, hm⟩, _⟩ := h3 p hp
    have hee : e = e2 := nodup_path_eq hnd he he2 (by rw [hep, he2p])
    subst hee
    have hgm : get_modification_prefix fs p pattern now1 = strftime pattern m := by
      unfold get_modification_prefix
      rw [getMtime_eq hnd he hep, hm]
    have hpe : pfxOfE pattern e = strftime pattern m := by
      unfold pfxOfE
      rw [hm]
      rfl
    simp only
    rw [hgm, hpe]
  obtain ⟨A, B, W, Cr, Cs, Ce⟩ := run1_fold pattern now1 cwd
    (fun p => should_skip_already_prefixed (splitPath p).2
      ( get_modification_prefix fs p pattern now1)) hpfx
    (collect_targets fs ext) fs ⟨0, 0, 0⟩ []
    hnd (collect_targets_nodup hnd ext) h3 hwf h5
  have hallskip := run2_all_skip pattern ext now2 A B hmt
  have hrun2 := run2_fold (fun _ _ => none) pattern now2 cwd
    (collect_targets ((collect_targets fs ext).foldl
      (renameStep (fun _ _ => none) pattern true now1 cwd) (fs, ⟨0, 0, 0⟩, [])).1 ext)
    ((collect_targets fs ext).foldl
      (renameStep (fun _ _ => none) pattern true now1 cwd) (fs, ⟨0, 0, 0⟩, [])).1
    ⟨0, 0, 0⟩ [] hallskip
  refine ⟨?_, ?_, ?_, ?_, ?_, ?_, ?_⟩
  · rw [on_rename_eq, Cr]
    simp
  · rw [on_rename_eq, Cs]
    simp
  · rw [on_rename_eq, Ce]
  · rw [on_rename_eq, on_rename_eq, hrun2]
  · rw [on_rename_eq, on_rename_eq, hrun2]
  · rw [on_rename_eq, on_rename_eq, hrun2]
  · rw [on_rename_eq, on_rename_eq, hrun2]
    simp

theorem padZero_no_slash (w n : Nat) : '/' ∉ padZero w n := by
  unfold padZero
  intro h
  rcases List.mem_append.mp h with h | h
  · have := List.eq_of_mem_replicate h
    exact absurd this (by decide)
  · exact decChars_no_slash h rfl

theorem strftime_Y_no_slash (dt : DT) : '/' ∉ (strftime "%Y" dt).data := by
  show '/' ∉ strftimeAux dt ("%Y" : String).data
  rw [show ("%Y" : String).data = ['%', 'Y'] from rfl]
  show '/' ∉ padZero 4 dt.year ++ strftimeAux dt []
  rw [show strftimeAux dt [] = [] from rfl, List.append_nil]
  exact padZero_no_slash 4 dt.year

theorem rename2date_C3_witness :
    (on_rename (fun _ _ => none) ".jpg" "%Y" true ⟨2026, 1, 1, 0, 0, 0⟩ "/base"
        (on_rename (fun _ _ => none) ".jpg" "%Y" true ⟨2025, 1, 1, 0, 0, 0⟩ "/base"
          [⟨"d/a.jpg", true, some ⟨2024, 3, 5, 14, 30, 0⟩⟩]).1).2.1.renamed = 0 ∧
    (on_rename (fun _ _ => none) ".jpg" "%Y" true ⟨2026, 1, 1, 0, 0, 0⟩ "/base"
        (on_rename (fun _ _ => none) ".jpg" "%Y" true ⟨2025, 1, 1, 0, 0, 0⟩ "/base"
          [⟨"d/a.jpg", true, some ⟨2024, 3, 5, 14, 30, 0⟩⟩]).1).1 =
      (on_rename (fun _ _ => none) ".jpg" "%Y" true ⟨2025, 1, 1, 0, 0, 0⟩ "/base"
          [⟨"d/a.jpg", true, some ⟨2024, 3, 5, 14, 30, 0⟩⟩]).1 := by
  have h := rename2date_C3_idempotent ".jpg" "%Y" ⟨2025, 1, 1, 0, 0, 0⟩
    ⟨2026, 1, 1, 0, 0, 0⟩ "/base" [⟨"d/a.jpg", true, some ⟨2024, 3, 5, 14, 30, 0⟩⟩]
    (by decide)
    (by
      intro e he
      rw [List.mem_singleton] at he
      subst he
      exact ⟨by decide, by decide, by decide⟩)
    (by
      intro e he hf
      rw [List.mem_singleton] at he
      subst he
      exact ⟨⟨2024, 3, 5, 14, 30, 0⟩, rfl⟩)
    strftime_Y_no_slash (by decide)
  exact ⟨h.2.2.2.2.1, h.2.2.2.1⟩
